import Mathlib

/-!
Verification development for the Esmeralda County plat-map crawler
(`plat_map_crawler.py`).

The Python source is shallowly embedded in Lean:

* strings are `String` (a `String` is a list of characters, compared by
  code point exactly as Python compares `str` values on the ASCII data
  appearing here);
* the PDF text layer is abstracted as page texts (the script's
  `fitz` calls are the external text-extraction primitive; a page whose
  extraction raises is modelled as `none`, a document that cannot be
  opened as `PdfDoc.openFail`);
* the file store is an explicit `Finset String` of canonical map ids
  whose artifact exists on disk;
* the network is an oracle `Nat → String → Bool` giving the outcome of
  the fetch attempted at a given step for a given id, so every possible
  behaviour of the origin server is covered by quantifying over it.
-/

/-- Decimal digit characters, as Python produces them in `str(n)` and in
`f"{n:02d}"` zero padding. -/
def digitChar : Nat → Char
  | 0 => '0'
  | 1 => '1'
  | 2 => '2'
  | 3 => '3'
  | 4 => '4'
  | 5 => '5'
  | 6 => '6'
  | 7 => '7'
  | 8 => '8'
  | 9 => '9'
  | _ => '?'

/-- Numeric value of a digit character (`int(c)` for one digit). -/
def charVal (c : Char) : Nat := c.toNat - 48

/-- Helper for decimal printing: builds the digit list of `n` most
significant first, with `fuel` bounding the recursion (`fuel > n`
always suffices, see `parseVal_natToCharsAux`). -/
def natToCharsAux : Nat → Nat → List Char → List Char
  | 0, _, acc => acc
  | fuel + 1, n, acc =>
    if n < 10 then digitChar n :: acc
    else natToCharsAux fuel (n / 10) (digitChar (n % 10) :: acc)

/-- Python `str(n)` for a natural number `n`. -/
def natToStr (n : Nat) : String := String.mk (natToCharsAux (n + 1) n [])

/-- Python `f"{n:02d}"`: zero-pad to two digits (numbers of three or
more digits print as-is). -/
def pad2 (n : Nat) : String := if n < 10 then "0" ++ natToStr n else natToStr n

/-- Value of a digit string read left to right (the arithmetic core of
Python `int(s)`). -/
def parseVal (l : List Char) : Nat := l.foldl (fun a c => 10 * a + charVal c) 0

/-- Python `int(s)` restricted to the inputs that occur in this script:
the sequence part of a canonical map id, which is a non-empty string of
decimal digits.  On any other string the script's `int` call raises
`ValueError`, modelled by `none` (exotic accepted forms of Python `int`
such as signs, surrounding whitespace or underscores never arise from
the file stems the crawler produces). -/
def pyToInt (s : String) : Option Nat :=
  if s.data ≠ [] ∧ s.data.all Char.isDigit then some (parseVal s.data) else none

/-- Python `s.split("-")`: split at every dash, keeping empty pieces. -/
def splitDash : List Char → List (List Char)
  | [] => [[]]
  | c :: rest =>
    if c = '-' then [] :: splitDash rest
    else
      match splitDash rest with
      | [] => [[c]]
      | g :: gs => (c :: g) :: gs

/-- Python `s.split("-")[0]`, the community part of a canonical map id
(`starting_map.split("-")[0]` in the source). -/
def commOf (s : String) : String := String.mk ((splitDash s.data).headD [])

/-- Python `s.split("-")[1]`, the sequence part of a map id
(`current_map.split("-")[1]` in the source; the source only evaluates it
under a `startswith("001-")` guard, so index 1 exists there). -/
def pySplitSecond (s : String) : String := String.mk ((splitDash s.data).getD 1 [])

/-- Python `s.startswith(pat)`, character by character. -/
def leadChars : List Char → List Char → Bool
  | [], _ => true
  | _ :: _, [] => false
  | p :: ps, s :: ss => p = s && leadChars ps ss

/-- Python `s.startswith(pat)`. -/
def pyStartsWith (s pat : String) : Bool := leadChars pat.data s.data

/-- The spec's identifier model: a document id `<community>-<sequence>`. -/
structure DocumentID where
  community : String
  sequence : Nat
deriving DecidableEq

/-- Canonical string form `"<community>-<sequence zero-padded to 2>"`. -/
def formatId (d : DocumentID) : String := d.community ++ "-" ++ pad2 d.sequence

/-- The spec's `sameCommunity` on canonical id strings: equality of the
part before the first dash. -/
def sameCommunity (a b : String) : Bool := commOf a == commOf b

/-- Python regex word characters (`\w`) for the ASCII text at hand. -/
def isWordChar (c : Char) : Bool := c.isAlphanum || c = '_'

/-- A word boundary `\b` holds after the match if the remaining text is
empty or starts with a non-word character (the matched text always ends
in a digit here). -/
def noWordAhead : List Char → Bool
  | [] => true
  | c :: _ => !isWordChar c

/-- A word boundary `\b` holds before the match if there is no previous
character or it is a non-word character (the matched text always starts
with a digit here). -/
def prevNonWord : Option Char → Bool
  | none => true
  | some c => !isWordChar c

/-- Python `re.findall(r'\b(\d{2})\b', text)`: scan left to right for
non-overlapping two-digit runs delimited by word boundaries.  `prev` is
the character just before the current position. -/
def findTwoDigit : Option Char → List Char → List String
  | prev, a :: b :: rest =>
    if prevNonWord prev && a.isDigit && b.isDigit && noWordAhead rest then
      String.mk [a, b] :: findTwoDigit (some b) rest
    else
      findTwoDigit (some a) (b :: rest)
  | _, _ => []

/-- Python `re.findall(r'\b(0\d{2}-\d{2})\b', text)`: scan left to right
for non-overlapping full-format references `0XX-YY` delimited by word
boundaries. -/
def findFullFormat : Option Char → List Char → List String
  | prev, c0 :: c1 :: c2 :: c3 :: c4 :: c5 :: rest =>
    if prevNonWord prev && c0 = '0' && c1.isDigit && c2.isDigit && c3 = '-' &&
        c4.isDigit && c5.isDigit && noWordAhead rest then
      String.mk [c0, c1, c2, c3, c4, c5] :: findFullFormat (some c5) rest
    else
      findFullFormat (some c0) (c1 :: c2 :: c3 :: c4 :: c5 :: rest)
  | _, _ => []

/-- Lexicographic comparison of character lists by code point — the
order Python's `list.sort()` uses on these ASCII strings. -/
def charsLe : List Char → List Char → Bool
  | [], _ => true
  | _ :: _, [] => false
  | a :: as, b :: bs => if a = b then charsLe as bs else decide (a < b)

/-- Python string `<=` on the ASCII data at hand. -/
def strLe (a b : String) : Bool := charsLe a.data b.data

/-- One insertion step of the sort modelling `list.sort()`. -/
def insertStr (x : String) : List String → List String
  | [] => [x]
  | y :: ys => if strLe x y then x :: y :: ys else y :: insertStr x ys

/-- Python `references.sort()`: sort ascending by string comparison
(on the distinct elements produced by `list(set(...))` any comparison
sort yields this unique result). -/
def sortStrs : List String → List String
  | [] => []
  | x :: xs => insertStr x (sortStrs xs)

/-- The numbers retained from the bare two-digit pass of one page: the
values of the `\b(\d{2})\b` matches kept by `1 <= num <= 50`, as a set
(`found_numbers` in the source is a Python `set` of small ints; we list
it in ascending order — the final output is deduplicated and sorted, so
only membership matters). -/
def foundNumbers (text : String) : List Nat :=
  (List.range 51).filter
    (fun n => 1 ≤ n ∧ n ∈ (findTwoDigit none text.data).map (fun m => parseVal m.data))

/-- References accumulated from one page of text: the full-format
matches, then the retained two-digit numbers formatted — as in the
source — with the hardcoded community `"001"`. -/
def pageRefs (text : String) : List String :=
  findFullFormat none text.data ++
    (foundNumbers text).map (fun n => "001-" ++ pad2 n)

/-- A PDF as the extractor sees it: either it fails to open, or it is a
sequence of pages each yielding text or raising during extraction. -/
inductive PdfDoc where
  | openFail : PdfDoc
  | ok : List (Option String) → PdfDoc

/-- Walk the pages in order, accumulating `pageRefs`; a `none` page
models the `fitz` call raising there, which aborts the scan (`false`
flag) with the references gathered so far, exactly as the `except`
handler in the source returns the partially filled `references`. -/
def collectPages : List (Option String) → List String × Bool
  | [] => ([], true)
  | none :: _ => ([], false)
  | some t :: rest =>
    let r := collectPages rest
    (pageRefs t ++ r.1, r.2)

/-- The adjacent-number fallback candidates from the document's parsed
sequence number: offsets `-1, 1, 10, -10`, kept when the result lies in
`[1, 99]`, formatted — as in the source — with community `"001"`. -/
def fallbackRefs (n : Nat) : List String :=
  ([-1, 1, 10, -10] : List Int).filterMap
    (fun off =>
      let adj : Int := (n : Int) + off
      if 1 ≤ adj ∧ adj ≤ 99 then some ("001-" ++ pad2 adj.toNat) else none)

/-- `extract_map_references` (source lines 101–217).  `current_map` is
`pdf_path.stem`.  On the non-exceptional path: collect per-page
references, deduplicate (`list(set(...))`), drop the current map, sort;
if fewer than 3 remain and the current map starts with `"001-"`, parse
its sequence number and merge in the fallback candidates (a parse
failure — `ValueError` — is swallowed).  If a page raised, the partial
raw list is returned; if the document did not open, the empty list. -/
def extract_map_references (doc : PdfDoc) (current_map : String) : List String :=
  match doc with
  | .openFail => []
  | .ok pages =>
    match collectPages pages with
    | (raw, false) => raw
    | (raw, true) =>
      let deduped := raw.dedup
      let filtered := deduped.filter (fun r => r ≠ current_map)
      let refs := sortStrs filtered
      if refs.length < 3 then
        if pyStartsWith current_map "001-" then
          match pyToInt (pySplitSecond current_map) with
          | some n => sortStrs (refs ++ fallbackRefs n).dedup
          | none => refs
        else refs
      else refs

example : extract_map_references (.ok [some "002 003-04"]) "001-01" =
    ["001-02", "001-04", "001-11", "003-04"] := by decide

example : extract_map_references (.ok [some "03"]) "002-01" = ["001-03"] := by decide

example : extract_map_references (.ok []) "001-07" =
    ["001-06", "001-08", "001-17"] := by decide

example : extract_map_references (.ok [some "02", none]) "007-01" = ["001-02"] := by decide

example : formatId ⟨"002", 1⟩ = "002-01" := by decide

/-! ### Basic facts about the decimal printing and parsing model -/

theorem charVal_digitChar {n : Nat} (h : n < 10) : charVal (digitChar n) = n := by
  interval_cases n <;> decide

theorem isDigit_digitChar {n : Nat} (h : n < 10) : (digitChar n).isDigit = true := by
  interval_cases n <;> decide

theorem natToCharsAux_append (fuel : Nat) :
    ∀ n acc, natToCharsAux fuel n acc = natToCharsAux fuel n [] ++ acc := by
  induction fuel with
  | zero => intro n acc; simp [natToCharsAux]
  | succ fuel ih =>
    intro n acc
    by_cases h : n < 10
    · simp [natToCharsAux, h]
    · simp only [natToCharsAux, if_neg h]
      rw [ih (n / 10) (digitChar (n % 10) :: acc), ih (n / 10) [digitChar (n % 10)]]
      simp

theorem parseVal_natToCharsAux (fuel : Nat) :
    ∀ n, n < fuel → parseVal (natToCharsAux fuel n []) = n := by
  induction fuel with
  | zero => intro n h; omega
  | succ fuel ih =>
    intro n h
    by_cases h10 : n < 10
    · simp [natToCharsAux, h10, parseVal, charVal_digitChar h10]
    · have hdiv : n / 10 < fuel := by
        have h1 : n / 10 < n := Nat.div_lt_self (by omega) (by omega)
        omega
      simp only [natToCharsAux, if_neg h10]
      rw [natToCharsAux_append fuel (n / 10) [digitChar (n % 10)]]
      simp only [parseVal, List.foldl_append] at *
      rw [ih (n / 10) hdiv]
      simp [List.foldl, charVal_digitChar (Nat.mod_lt n (by omega))]
      omega

theorem digits_natToCharsAux (fuel : Nat) :
    ∀ n acc, (∀ c ∈ acc, c.isDigit = true) →
      ∀ c ∈ natToCharsAux fuel n acc, c.isDigit = true := by
  induction fuel with
  | zero => intro n acc hacc; simpa [natToCharsAux] using hacc
  | succ fuel ih =>
    intro n acc hacc c hc
    by_cases h10 : n < 10
    · simp only [natToCharsAux, if_pos h10, List.mem_cons] at hc
      rcases hc with hc | hc
      · simpa [hc] using isDigit_digitChar h10
      · exact hacc _ hc
    · simp only [natToCharsAux, if_neg h10] at hc
      refine ih (n / 10) _ ?_ c hc
      intro d hd
      rcases List.mem_cons.mp hd with hd | hd
      · simpa [hd] using isDigit_digitChar (Nat.mod_lt n (by omega))
      · exact hacc _ hd

theorem natToCharsAux_ne_nil (fuel n : Nat) (h : 0 < fuel) :
    natToCharsAux fuel n [] ≠ [] := by
  cases fuel with
  | zero => omega
  | succ fuel =>
    by_cases h10 : n < 10
    · simp [natToCharsAux, h10]
    · simp only [natToCharsAux, if_neg h10]
      rw [natToCharsAux_append]
      simp

theorem parseVal_natToStr (n : Nat) : parseVal (natToStr n).data = n :=
  parseVal_natToCharsAux (n + 1) n (Nat.lt_succ_self n)

theorem natToStr_digits (n : Nat) : ∀ c ∈ (natToStr n).data, c.isDigit = true := by
  intro c hc
  exact digits_natToCharsAux (n + 1) n [] (by simp) c hc

theorem natToStr_ne_nil (n : Nat) : (natToStr n).data ≠ [] :=
  natToCharsAux_ne_nil (n + 1) n (Nat.succ_pos n)

theorem pad2_data (n : Nat) :
    (pad2 n).data = if n < 10 then '0' :: (natToStr n).data else (natToStr n).data := by
  by_cases h : n < 10 <;> simp [pad2, h, String.data_append]

theorem pad2_digits (n : Nat) : ∀ c ∈ (pad2 n).data, c.isDigit = true := by
  intro c hc
  rw [pad2_data] at hc
  by_cases h : n < 10
  · rw [if_pos h] at hc
    rcases List.mem_cons.mp hc with hc | hc
    · simp [hc]
    · exact natToStr_digits n c hc
  · rw [if_neg h] at hc
    exact natToStr_digits n c hc

theorem pad2_ne_nil (n : Nat) : (pad2 n).data ≠ [] := by
  rw [pad2_data]
  by_cases h : n < 10 <;> simp [h, natToStr_ne_nil]

theorem parseVal_pad2 (n : Nat) : parseVal (pad2 n).data = n := by
  rw [pad2_data]
  by_cases h : n < 10
  · rw [if_pos h]
    show List.foldl _ _ _ = n
    rw [List.foldl_cons]
    have : (10 * 0 + charVal '0') = 0 := by decide
    rw [this]
    exact parseVal_natToStr n
  · rw [if_neg h]; exact parseVal_natToStr n

theorem pyToInt_pad2 (n : Nat) : pyToInt (pad2 n) = some n := by
  unfold pyToInt
  rw [if_pos]
  · rw [parseVal_pad2]
  · refine ⟨pad2_ne_nil n, ?_⟩
    rw [List.all_eq_true]
    exact pad2_digits n

theorem pad2_inj {m n : Nat} (h : pad2 m = pad2 n) : m = n := by
  have := parseVal_pad2 m
  rw [h, parseVal_pad2] at this
  omega

/-! ### Facts about `split("-")` on canonical ids -/

theorem splitDash_dash (rest : List Char) : splitDash ('-' :: rest) = [] :: splitDash rest := by
  simp [splitDash]

theorem splitDash_no_dash (l : List Char) (h : ∀ c ∈ l, c ≠ '-') : splitDash l = [l] := by
  induction l with
  | nil => rfl
  | cons c rest ih =>
    have hc : c ≠ '-' := h c (List.mem_cons_self c rest)
    have hrest := ih (fun d hd => h d (List.mem_cons_of_mem c hd))
    simp only [splitDash, if_neg hc, hrest]

theorem splitDash_append_dash (a b : List Char) (h : ∀ c ∈ a, c ≠ '-') :
    splitDash (a ++ '-' :: b) = a :: splitDash b := by
  induction a with
  | nil => simp [splitDash_dash]
  | cons c rest ih =>
    have hc : c ≠ '-' := h c (List.mem_cons_self c rest)
    have hrest := ih (fun d hd => h d (List.mem_cons_of_mem c hd))
    rw [List.cons_append]
    simp only [splitDash, if_neg hc, hrest]

theorem strExt {a b : String} (h : a.data = b.data) : a = b := by
  cases a
  cases b
  exact congrArg String.mk h

theorem ne_dash_of_isDigit {c : Char} (h : c.isDigit = true) : c ≠ '-' := by
  intro heq
  subst heq
  exact absurd h (by decide)

theorem formatId_data (d : DocumentID) :
    (formatId d).data = d.community.data ++ '-' :: (pad2 d.sequence).data := by
  show (d.community ++ "-" ++ pad2 d.sequence).data = _
  rw [String.data_append, String.data_append, List.append_assoc]
  congr 1

theorem commOf_formatId (c : String) (n : Nat) (hdash : ∀ ch ∈ c.data, ch ≠ '-') :
    commOf (formatId ⟨c, n⟩) = c := by
  unfold commOf
  rw [formatId_data]
  rw [splitDash_append_dash c.data (pad2 n).data hdash]
  exact strExt rfl

theorem pySplitSecond_formatId (c : String) (n : Nat) (hdash : ∀ ch ∈ c.data, ch ≠ '-') :
    pySplitSecond (formatId ⟨c, n⟩) = pad2 n := by
  unfold pySplitSecond
  rw [formatId_data]
  rw [splitDash_append_dash c.data (pad2 n).data hdash]
  rw [splitDash_no_dash (pad2 n).data (fun d hd => ne_dash_of_isDigit (pad2_digits n d hd))]
  exact strExt rfl

theorem leadChars_iff (p : List Char) : ∀ s, leadChars p s = true ↔ ∃ t, s = p ++ t := by
  induction p with
  | nil =>
    intro s
    simp [leadChars]
  | cons a ps ih =>
    intro s
    cases s with
    | nil =>
      simp only [leadChars]
      constructor
      · intro h; exact absurd h (by simp)
      · rintro ⟨t, ht⟩; exact absurd ht (by simp)
    | cons b ss =>
      simp only [leadChars, Bool.and_eq_true, decide_eq_true_eq]
      rw [ih ss]
      constructor
      · rintro ⟨rfl, t, rfl⟩; exact ⟨t, rfl⟩
      · rintro ⟨t, ht⟩
        rw [List.cons_append] at ht
        injection ht with h1 h2
        exact ⟨h1.symm, t, h2⟩

theorem comm_eq_001_of_lead (c : String) (n : Nat)
    (hc : ∀ ch ∈ c.data, ch.isDigit = true)
    (h : pyStartsWith (formatId ⟨c, n⟩) "001-" = true) : c = "001" := by
  obtain ⟨t, ht⟩ := (leadChars_iff _ _).mp h
  rw [formatId_data] at ht
  rcases hcd : c.data with _ | ⟨a, _ | ⟨b, _ | ⟨d, _ | ⟨e, l4⟩⟩⟩⟩ <;>
    rw [hcd] at ht <;>
    simp only [List.cons_append, List.nil_append] at ht
  · injection ht with h1 _
    exact absurd h1 (by decide)
  · injection ht with h1 ht
    injection ht with h2 _
    exact absurd h2 (by decide)
  · injection ht with h1 ht
    injection ht with h2 ht
    injection ht with h3 _
    exact absurd h3 (by decide)
  · injection ht with h1 ht
    injection ht with h2 ht
    injection ht with h3 _
    refine strExt ?_
    rw [hcd, h1, h2, h3]
  · have he : e ∈ c.data := by
      rw [hcd]
      simp
    injection ht with h1 ht
    injection ht with h2 ht
    injection ht with h3 ht
    injection ht with h4 _
    exact absurd h4 (ne_dash_of_isDigit (hc e he))

/-! ### Order facts for the sort modelling `list.sort()` -/

theorem charsLe_total (a : List Char) : ∀ b, charsLe a b = true ∨ charsLe b a = true := by
  induction a with
  | nil => intro b; left; rfl
  | cons x xs ih =>
    intro b
    cases b with
    | nil => right; rfl
    | cons y ys =>
      by_cases hxy : x = y
      · subst hxy
        rcases ih ys with h | h
        · left; simpa [charsLe] using h
        · right; simpa [charsLe] using h
      · rcases lt_trichotomy x y with hlt | heq | hgt
        · left
          simp only [charsLe, if_neg hxy]
          simpa using hlt
        · exact absurd heq hxy
        · right
          simp only [charsLe, if_neg (Ne.symm hxy)]
          simpa using hgt

theorem charsLe_trans (a : List Char) :
    ∀ b c, charsLe a b = true → charsLe b c = true → charsLe a c = true := by
  induction a with
  | nil => intro b c _ _; rfl
  | cons x xs ih =>
    intro b c hab hbc
    cases b with
    | nil => simp [charsLe] at hab
    | cons y ys =>
      cases c with
      | nil => simp [charsLe] at hbc
      | cons z zs =>
        simp only [charsLe] at hab hbc ⊢
        by_cases hxy : x = y
        · subst hxy
          rw [if_pos rfl] at hab
          by_cases hyz : x = z
          · subst hyz
            rw [if_pos rfl] at hbc
            rw [if_pos rfl]
            exact ih ys zs hab hbc
          · rw [if_neg hyz] at hbc
            rw [if_neg hyz]
            exact hbc
        · rw [if_neg hxy] at hab
          have hlt1 : x < y := by simpa using hab
          by_cases hyz : y = z
          · subst hyz
            rw [if_neg hxy]
            simpa using hlt1
          · rw [if_neg hyz] at hbc
            have hlt2 : y < z := by simpa using hbc
            have hlt : x < z := lt_trans hlt1 hlt2
            rw [if_neg (ne_of_lt hlt)]
            simpa using hlt

theorem charsLe_antisymm (a : List Char) :
    ∀ b, charsLe a b = true → charsLe b a = true → a = b := by
  induction a with
  | nil =>
    intro b h1 h2
    cases b with
    | nil => rfl
    | cons y ys => simp [charsLe] at h2
  | cons x xs ih =>
    intro b h1 h2
    cases b with
    | nil => simp [charsLe] at h1
    | cons y ys =>
      simp only [charsLe] at h1 h2
      by_cases hxy : x = y
      · subst hxy
        rw [if_pos rfl] at h1 h2
        rw [ih ys h1 h2]
      · rw [if_neg hxy] at h1
        rw [if_neg (Ne.symm hxy)] at h2
        have l1 : x < y := by simpa using h1
        have l2 : y < x := by simpa using h2
        exact absurd l2 (lt_asymm l1)

theorem strLe_total (a b : String) : strLe a b = true ∨ strLe b a = true :=
  charsLe_total a.data b.data

theorem strLe_trans {a b c : String} (h1 : strLe a b = true) (h2 : strLe b c = true) :
    strLe a c = true :=
  charsLe_trans a.data b.data c.data h1 h2

theorem strLe_antisymm {a b : String} (h1 : strLe a b = true) (h2 : strLe b a = true) :
    a = b :=
  strExt (charsLe_antisymm a.data b.data h1 h2)

theorem insertStr_perm (x : String) (l : List String) : List.Perm (insertStr x l) (x :: l) := by
  induction l with
  | nil => exact List.Perm.refl _
  | cons y ys ih =>
    by_cases h : strLe x y = true
    · simp [insertStr, h]
    · simp only [insertStr, if_neg h]
      exact (ih.cons y).trans (List.Perm.swap x y ys)

theorem mem_insertStr {y x : String} {l : List String} :
    y ∈ insertStr x l ↔ y = x ∨ y ∈ l := by
  rw [(insertStr_perm x l).mem_iff]
  simp

theorem insertStr_pairwise {l : List String} (x : String)
    (h : l.Pairwise (fun a b => strLe a b = true)) :
    (insertStr x l).Pairwise (fun a b => strLe a b = true) := by
  induction l with
  | nil => simp [insertStr]
  | cons y ys ih =>
    rcases List.pairwise_cons.mp h with ⟨hy, hys⟩
    by_cases hxy : strLe x y = true
    · simp only [insertStr, if_pos hxy]
      refine List.pairwise_cons.mpr ⟨?_, h⟩
      intro z hz
      rcases List.mem_cons.mp hz with rfl | hz
      · exact hxy
      · exact strLe_trans hxy (hy z hz)
    · simp only [insertStr, if_neg hxy]
      refine List.pairwise_cons.mpr ⟨?_, ih hys⟩
      intro z hz
      rcases mem_insertStr.mp hz with heq | hz
      · rw [heq]
        rcases strLe_total x y with h1 | h1
        · exact absurd h1 hxy
        · exact h1
      · exact hy z hz

theorem sortStrs_perm (l : List String) : List.Perm (sortStrs l) l := by
  induction l with
  | nil => exact List.Perm.refl _
  | cons x xs ih => exact (insertStr_perm x (sortStrs xs)).trans (ih.cons x)

theorem sortStrs_pairwise (l : List String) :
    (sortStrs l).Pairwise (fun a b => strLe a b = true) := by
  induction l with
  | nil => simp [sortStrs]
  | cons x xs ih => exact insertStr_pairwise x ih

theorem sortStrs_nodup {l : List String} (h : l.Nodup) : (sortStrs l).Nodup :=
  (sortStrs_perm l).nodup_iff.mpr h

theorem mem_sortStrs {y : String} {l : List String} : y ∈ sortStrs l ↔ y ∈ l :=
  (sortStrs_perm l).mem_iff

/-- The sorted, deduplicated output property: strictly ascending in the
byte-wise string order (strict ascent subsumes "no duplicates"). -/
def strAsc (l : List String) : Prop :=
  l.Pairwise (fun a b => strLe a b = true ∧ a ≠ b)

theorem strAsc_sortStrs {l : List String} (h : l.Nodup) : strAsc (sortStrs l) := by
  have h1 := sortStrs_pairwise l
  have h2 : (sortStrs l).Pairwise (· ≠ ·) := sortStrs_nodup h
  exact h1.and h2

/-! ### The extractor on fully readable documents -/

theorem collectPages_map_some (pages : List String) :
    collectPages (pages.map some) = ((pages.map pageRefs).flatten, true) := by
  induction pages with
  | nil => rfl
  | cons t rest ih =>
    simp only [List.map_cons, collectPages, ih, List.flatten_cons]

theorem extract_ok_true (pages : List String) (current : String) :
    extract_map_references (.ok (pages.map some)) current =
      (let raw := (pages.map pageRefs).flatten
       let refs := sortStrs ((raw.dedup).filter (fun r => r ≠ current))
       if refs.length < 3 then
         if pyStartsWith current "001-" then
           match pyToInt (pySplitSecond current) with
           | some n => sortStrs (refs ++ fallbackRefs n).dedup
           | none => refs
         else refs
       else refs) := by
  show (match collectPages (pages.map some) with
    | (raw, false) => raw
    | (raw, true) =>
      let deduped := raw.dedup
      let filtered := deduped.filter (fun r => r ≠ current)
      let refs := sortStrs filtered
      if refs.length < 3 then
        if pyStartsWith current "001-" then
          match pyToInt (pySplitSecond current) with
          | some n => sortStrs (refs ++ fallbackRefs n).dedup
          | none => refs
        else refs
      else refs) = _
  rw [collectPages_map_some]

theorem fallbackRefs_mem {y : String} {n : Nat} (h : y ∈ fallbackRefs n) :
    ∃ m : Nat, m ≠ n ∧ m ≤ 99 ∧ y = "001-" ++ pad2 m := by
  unfold fallbackRefs at h
  rcases List.mem_filterMap.mp h with ⟨off, hoff, hy⟩
  by_cases hin : (1 : Int) ≤ (n : Int) + off ∧ (n : Int) + off ≤ 99
  · rw [if_pos hin] at hy
    injection hy with hy
    refine ⟨((n : Int) + off).toNat, ?_, by omega, hy.symm⟩
    have hoff4 : off = -1 ∨ off = 1 ∨ off = 10 ∨ off = -10 := by
      simpa using hoff
    rcases hoff4 with rfl | rfl | rfl | rfl <;> omega
  · rw [if_neg hin] at hy
    exact absurd hy (by simp)

theorem append_pad2_inj {m s : Nat} (h : "001-" ++ pad2 m = formatId ⟨"001", s⟩) : m = s := by
  have hd := congrArg String.data h
  rw [String.data_append, formatId_data] at hd
  have : (pad2 m).data = (pad2 s).data := by
    have h4 : ("001-" : String).data = "001".data ++ ['-'] := by decide
    rw [h4, List.append_assoc] at hd
    have := List.append_cancel_left hd
    simpa using this
  exact pad2_inj (strExt this)

theorem extract_body_props (raw : List String) (c : String) (s : Nat)
    (hc : ∀ ch ∈ c.data, ch.isDigit = true) :
    strAsc
        (if (sortStrs ((raw.dedup).filter (fun r => r ≠ formatId ⟨c, s⟩))).length < 3 then
          if pyStartsWith (formatId ⟨c, s⟩) "001-" then
            match pyToInt (pySplitSecond (formatId ⟨c, s⟩)) with
            | some n =>
              sortStrs ((sortStrs ((raw.dedup).filter (fun r => r ≠ formatId ⟨c, s⟩))) ++
                fallbackRefs n).dedup
            | none => sortStrs ((raw.dedup).filter (fun r => r ≠ formatId ⟨c, s⟩))
          else sortStrs ((raw.dedup).filter (fun r => r ≠ formatId ⟨c, s⟩))
        else sortStrs ((raw.dedup).filter (fun r => r ≠ formatId ⟨c, s⟩))) ∧
      formatId ⟨c, s⟩ ∉
        (if (sortStrs ((raw.dedup).filter (fun r => r ≠ formatId ⟨c, s⟩))).length < 3 then
          if pyStartsWith (formatId ⟨c, s⟩) "001-" then
            match pyToInt (pySplitSecond (formatId ⟨c, s⟩)) with
            | some n =>
              sortStrs ((sortStrs ((raw.dedup).filter (fun r => r ≠ formatId ⟨c, s⟩))) ++
                fallbackRefs n).dedup
            | none => sortStrs ((raw.dedup).filter (fun r => r ≠ formatId ⟨c, s⟩))
          else sortStrs ((raw.dedup).filter (fun r => r ≠ formatId ⟨c, s⟩))
        else sortStrs ((raw.dedup).filter (fun r => r ≠ formatId ⟨c, s⟩))) := by
  have hfilnd : ((raw.dedup).filter (fun r => r ≠ formatId ⟨c, s⟩)).Nodup :=
    (List.nodup_dedup raw).filter _
  have hbase_ne :
      formatId ⟨c, s⟩ ∉ sortStrs ((raw.dedup).filter (fun r => r ≠ formatId ⟨c, s⟩)) := by
    intro hmem
    have h2 := (List.mem_filter.mp (mem_sortStrs.mp hmem)).2
    simp at h2
  constructor
  · split
    · split
      · split
        · exact strAsc_sortStrs (List.nodup_dedup _)
        · exact strAsc_sortStrs hfilnd
      · exact strAsc_sortStrs hfilnd
    · exact strAsc_sortStrs hfilnd
  · intro hmem
    split at hmem
    · split at hmem
      · split at hmem
        · rename_i hstart _o n heq
          have hc001 : c = "001" := comm_eq_001_of_lead c s hc hstart
          subst hc001
          have hdash : ∀ ch ∈ ("001" : String).data, ch ≠ '-' := by decide
          rw [pySplitSecond_formatId _ _ hdash, pyToInt_pad2] at heq
          injection heq with hns
          subst hns
          have hy2 := List.mem_dedup.mp (mem_sortStrs.mp hmem)
          rcases List.mem_append.mp hy2 with h1 | h2
          · exact hbase_ne h1
          · rcases fallbackRefs_mem h2 with ⟨m, hm, _, hy⟩
            exact hm (append_pad2_inj hy.symm)
        · exact hbase_ne hmem
      · exact hbase_ne hmem
    · exact hbase_ne hmem

/-- C1 (amended): for every sequence of fully readable page texts and
every canonical self id (numeric community code, any sequence number),
`extract_map_references` returns a strictly ascending — hence
deduplicated — list in byte-wise string order that never contains the
self id.  The claim's same-community restriction does not hold of the
extractor (see `extract_refs_cross_community_ce`); that filtering
happens later, at the traversal engine's enqueue check. -/
theorem extract_refs_sorted_nodup_self_excluded
    (pages : List String) (c : String) (s : Nat)
    (hc : ∀ ch ∈ c.data, ch.isDigit = true) :
    strAsc (extract_map_references (.ok (pages.map some)) (formatId ⟨c, s⟩)) ∧
      formatId ⟨c, s⟩ ∉ extract_map_references (.ok (pages.map some)) (formatId ⟨c, s⟩) := by
  rw [extract_ok_true]
  exact extract_body_props ((pages.map pageRefs).flatten) c s hc

/-- C1 counterexample: with self id `001-01` and a page containing only
the text `003-04`, the extractor returns the full-format match `003-04`,
which is not in the self id's community — refuting the claim that every
returned id is in the same community as the self id. -/
theorem extract_refs_cross_community_ce :
    "003-04" ∈ extract_map_references (.ok [some "003-04"]) (formatId ⟨"001", 1⟩) ∧
      sameCommunity "003-04" (formatId ⟨"001", 1⟩) = false := by decide

/-- Witness for `extract_refs_sorted_nodup_self_excluded` at a concrete
input. -/
theorem extract_refs_sorted_nodup_self_excluded_witness :
    (∀ ch ∈ ("002" : String).data, ch.isDigit = true) ∧
      (strAsc (extract_map_references (.ok (["03"].map some)) (formatId ⟨"002", 1⟩)) ∧
        formatId ⟨"002", 1⟩ ∉ extract_map_references (.ok (["03"].map some)) (formatId ⟨"002", 1⟩)) :=
  ⟨by decide, extract_refs_sorted_nodup_self_excluded ["03"] "002" 1 (by decide)⟩

/-- C2: evaluation at the failing input.  With self id `002-01` and page
text `"03"`, the retained bare numeral 3 is formatted with the hardcoded
community `001` (source line `formatted_id = f"001-{num:02d}"`), yielding
`001-03` — not the document's own community form `002-03` that the claim
requires (the caller's same-community filter then silently discards it,
so the whole short-numeral pass is dead for every community but 001). -/
theorem extract_hardcoded_community_eval :
    extract_map_references (.ok [some "03"]) (formatId ⟨"002", 1⟩) = ["001-03"] ∧
      sameCommunity "001-03" (formatId ⟨"002", 1⟩) = false := by decide

/-- C3: evaluation at the failing input.  A document of community 002
with no references at all (`002-02`, empty page list) gets no fallback
candidates — the fallback is gated on `current_map.startswith("001-")` —
while the analogous 001 document (`001-07`) gets exactly the in-range
`±1/±10` neighbours. -/
theorem extract_fallback_only_001_eval :
    extract_map_references (.ok []) (formatId ⟨"002", 2⟩) = [] ∧
      extract_map_references (.ok []) (formatId ⟨"001", 7⟩) =
        ["001-06", "001-08", "001-17"] := by decide

theorem collectPages_fail (ps : List String) (rest : List (Option String)) :
    collectPages (ps.map some ++ none :: rest) = ((ps.map pageRefs).flatten, false) := by
  induction ps with
  | nil => rfl
  | cons t ts ih =>
    simp only [List.map_cons, List.cons_append, collectPages, List.append_eq, ih,
      List.flatten_cons]

/-- C8 (amended): the extractor never raises.  A document that cannot be
opened yields the empty list, but an extraction error occurring after
some pages were already scanned returns exactly the references
accumulated so far — not necessarily empty, deduplicated, self-excluded
or sorted — because the source's `except` handler returns the partially
filled `references` list. -/
theorem extract_failure_amended :
    (∀ current : String, extract_map_references .openFail current = []) ∧
      (∀ (ps : List String) (rest : List (Option String)) (current : String),
        extract_map_references (.ok (ps.map some ++ none :: rest)) current =
          (ps.map pageRefs).flatten) := by
  constructor
  · intro current
    rfl
  · intro ps rest current
    simp only [extract_map_references]
    rw [collectPages_fail]

/-- C8 counterexample: a document whose first page reads `"02"` and whose
second page fails to extract makes `extract_map_references` return the
non-empty partial list `["001-02"]`, refuting "returns the empty sequence
on any internal extraction error". -/
theorem extract_failure_nonempty_ce :
    extract_map_references (.ok [some "02", none]) (formatId ⟨"007", 1⟩) = ["001-02"] ∧
      extract_map_references (.ok [some "02", none]) (formatId ⟨"007", 1⟩) ≠ [] := by decide

/-! ### The traversal engine (`crawl_plat_maps`) -/

theorem eq_digitChar_of_isDigit {c : Char} (h : c.isDigit = true) :
    ∃ d, d < 10 ∧ c = digitChar d := by
  have hb : c.val ≥ 48 ∧ c.val ≤ 57 := by
    simpa [Char.isDigit, Bool.and_eq_true, decide_eq_true_eq] using h
  have hlo : 48 ≤ c.toNat := UInt32.le_toNat_of_le (by norm_num [UInt32.size]) hb.1
  have hhi : c.toNat ≤ 57 := UInt32.toNat_le_of_le (by norm_num [UInt32.size]) hb.2
  have hc : Char.ofNat c.toNat = c := Char.ofNat_toNat c
  refine ⟨c.toNat - 48, by omega, ?_⟩
  interval_cases hn : c.toNat <;> rw [← hc] <;> decide

theorem pad2_chars {n : Nat} (h : n ≤ 99) :
    (pad2 n).data = [digitChar (n / 10), digitChar (n % 10)] := by
  by_cases h10 : n < 10
  · have hdiv : n / 10 = 0 := by omega
    have hmod : n % 10 = n := by omega
    rw [pad2_data, if_pos h10, hdiv, hmod]
    show '0' :: natToCharsAux (n + 1) n [] = _
    simp [natToCharsAux, h10, digitChar]
  · obtain ⟨m, rfl⟩ : ∃ m, n = m + 1 := ⟨n - 1, by omega⟩
    rw [pad2_data, if_neg h10]
    show natToCharsAux (m + 1 + 1) (m + 1) [] = _
    rw [show natToCharsAux (m + 1 + 1) (m + 1) [] =
        natToCharsAux (m + 1) ((m + 1) / 10) [digitChar ((m + 1) % 10)] from by
      simp [natToCharsAux, h10]]
    obtain ⟨k, hk⟩ : ∃ k, m = k + 1 := ⟨m - 1, by omega⟩
    subst hk
    have hdiv10 : (k + 1 + 1) / 10 < 10 := by omega
    simp [natToCharsAux, hdiv10]

/-- The finite universe of strings the extractor can return: every
output has the six-character shape `0XX-YY` (the full-format regex
shape; the hardcoded `"001-" ++ pad2 n` candidates with `n ≤ 99` also
have it).  The traversal's frontier only ever receives such strings, so
this set bounds the reachable id space. -/
def Sall : Finset String :=
  (((Finset.range 10) ×ˢ (Finset.range 10)) ×ˢ
      ((Finset.range 10) ×ˢ (Finset.range 10))).image
    (fun p =>
      String.mk ['0', digitChar p.1.1, digitChar p.1.2, '-', digitChar p.2.1, digitChar p.2.2])

set_option maxRecDepth 8000

theorem mem_Sall_shape {d1 d2 d3 d4 : Nat} (h1 : d1 < 10) (h2 : d2 < 10) (h3 : d3 < 10)
    (h4 : d4 < 10) :
    String.mk ['0', digitChar d1, digitChar d2, '-', digitChar d3, digitChar d4] ∈ Sall := by
  refine Finset.mem_image.mpr ⟨((d1, d2), (d3, d4)), ?_, rfl⟩
  simp [Finset.mem_product, h1, h2, h3, h4]

theorem mem_Sall_001 {n : Nat} (h : n ≤ 99) : "001-" ++ pad2 n ∈ Sall := by
  have hdata : ("001-" ++ pad2 n).data =
      ['0', digitChar 0, digitChar 1, '-', digitChar (n / 10), digitChar (n % 10)] := by
    rw [String.data_append, pad2_chars h]
    rfl
  have : "001-" ++ pad2 n =
      String.mk ['0', digitChar 0, digitChar 1, '-', digitChar (n / 10), digitChar (n % 10)] :=
    strExt hdata
  rw [this]
  exact mem_Sall_shape (by omega) (by omega) (by omega) (by omega)

theorem card_Sall_le : Sall.card ≤ 10000 := by
  refine le_trans Finset.card_image_le ?_
  simp [Finset.card_product]

theorem mem_findFullFormat_Sall :
    ∀ (prev : Option Char) (l : List Char) (y : String), y ∈ findFullFormat prev l → y ∈ Sall := by
  intro prev l
  induction prev, l using findFullFormat.induct with
  | case1 prev c0 c1 c2 c3 c4 c5 rest hcond ih =>
    intro y hy
    simp only [findFullFormat, if_pos hcond, List.mem_cons] at hy
    rcases hy with rfl | hy
    · simp only [Bool.and_eq_true, decide_eq_true_eq] at hcond
      obtain ⟨⟨⟨⟨⟨⟨⟨_, hc0⟩, hd1⟩, hd2⟩, hc3⟩, hd4⟩, hd5⟩, _⟩ := hcond
      obtain ⟨v1, hv1, rfl⟩ := eq_digitChar_of_isDigit hd1
      obtain ⟨v2, hv2, rfl⟩ := eq_digitChar_of_isDigit hd2
      obtain ⟨v4, hv4, rfl⟩ := eq_digitChar_of_isDigit hd4
      obtain ⟨v5, hv5, rfl⟩ := eq_digitChar_of_isDigit hd5
      subst hc0
      subst hc3
      exact mem_Sall_shape hv1 hv2 hv4 hv5
    · exact ih y hy
  | case2 prev c0 c1 c2 c3 c4 c5 rest hcond ih =>
    intro y hy
    simp only [findFullFormat, if_neg hcond] at hy
    exact ih y hy
  | case3 prev l hl =>
    intro y hy
    simp only [findFullFormat] at hy
    rcases hy

theorem mem_pageRefs_Sall {t : String} {y : String} (h : y ∈ pageRefs t) : y ∈ Sall := by
  unfold pageRefs at h
  rcases List.mem_append.mp h with h1 | h2
  · exact mem_findFullFormat_Sall none t.data y h1
  · rcases List.mem_map.mp h2 with ⟨n, hn, rfl⟩
    have hn50 : n ≤ 50 := by
      have := (List.mem_filter.mp hn).1
      have := List.mem_range.mp this
      omega
    exact mem_Sall_001 (by omega)

theorem mem_collectPages_Sall :
    ∀ (pages : List (Option String)) (y : String), y ∈ (collectPages pages).1 → y ∈ Sall := by
  intro pages
  induction pages with
  | nil => intro y hy; rcases hy
  | cons p rest ih =>
    intro y hy
    cases p with
    | none => rcases hy
    | some t =>
      simp only [collectPages] at hy
      rcases List.mem_append.mp hy with h1 | h2
      · exact mem_pageRefs_Sall h1
      · exact ih y h2

theorem mem_extract_Sall {doc : PdfDoc} {current y : String}
    (h : y ∈ extract_map_references doc current) : y ∈ Sall := by
  cases doc with
  | openFail =>
    simp only [extract_map_references] at h
    rcases h
  | ok pages =>
    simp only [extract_map_references] at h
    rcases hcp : collectPages pages with ⟨raw, flag⟩
    rw [hcp] at h
    have hraw : ∀ z ∈ raw, z ∈ Sall := by
      intro z hz
      refine mem_collectPages_Sall pages z ?_
      rw [hcp]
      exact hz
    have hbase : ∀ z ∈ sortStrs ((raw.dedup).filter (fun r => r ≠ current)), z ∈ Sall := by
      intro z hz
      exact hraw z (List.mem_dedup.mp (List.mem_filter.mp (mem_sortStrs.mp hz)).1)
    cases flag with
    | false => exact hraw y h
    | true =>
      simp only at h
      split at h
      · split at h
        · split at h
          · rename_i n heq
            have hy2 := List.mem_dedup.mp (mem_sortStrs.mp h)
            rcases List.mem_append.mp hy2 with h1 | h2
            · exact hbase y h1
            · rcases fallbackRefs_mem h2 with ⟨m, _, hm99, rfl⟩
              exact mem_Sall_001 hm99
          · exact hbase y h
        · exact hbase y h
      · exact hbase y h

/-- `download_pdf` (source lines 66–98) against the abstract store and
network: if the artifact already exists the fetch is skipped and success
is reported; otherwise the fetch is attempted — on success the artifact
is written to the store, on a transport error nothing changes and
failure is reported.  `net t id` is the outcome the origin server gives
the fetch performed at step `t` for id `id`, so quantifying over `net`
covers every behaviour of the server. -/
def download_pdf (net : Nat → String → Bool) (t : Nat) (id : String)
    (store : Finset String) : Bool × Finset String :=
  if id ∈ store then (true, store)
  else if net t id then (true, insert id store)
  else (false, store)

/-- The `CrawlState` of one traversal run (source lines 257–259),
together with the store the run reads and writes. -/
structure CrawlState where
  queue : List String
  processed : Finset String
  failed : Finset String
  store : Finset String
deriving DecidableEq

/-- One iteration of the `while queue:` loop of `crawl_plat_maps`
(source lines 264–299): dequeue the head; skip it if already processed
or already failed; otherwise download.  On failure record the id as
failed.  On success record it as processed, extract references from the
fetched document (`docs t id` gives its content) and append — in order —
every reference that starts with `community_prefix + "-"` and is in
neither `processed` nor `failed` nor the current queue.  With an empty
queue the state is returned unchanged (the loop has terminated). -/
def crawlStep (docs : Nat → String → PdfDoc) (net : Nat → String → Bool)
    (comm : String) (t : Nat) (st : CrawlState) : CrawlState :=
  match st.queue with
  | [] => st
  | current :: rest =>
    if current ∈ st.processed then { st with queue := rest }
    else if current ∈ st.failed then { st with queue := rest }
    else
      let dl := download_pdf net t current st.store
      if dl.1 then
        let processed := insert current st.processed
        let references := extract_map_references (docs t current) current
        let queue := references.foldl
          (fun q ref =>
            if pyStartsWith ref (comm ++ "-") ∧ ref ∉ processed ∧ ref ∉ st.failed ∧ ref ∉ q
            then q ++ [ref] else q) rest
        ⟨queue, processed, st.failed, dl.2⟩
      else { st with queue := rest, failed := insert current st.failed }

/-- `k` iterations of the traversal loop, the first one numbered `t`. -/
def crawlFrom (docs : Nat → String → PdfDoc) (net : Nat → String → Bool)
    (comm : String) : Nat → Nat → CrawlState → CrawlState
  | _, 0, st => st
  | t, k + 1, st => crawlFrom docs net comm (t + 1) k (crawlStep docs net comm t st)

/-- The initial `CrawlState`: `queue = deque([starting_map])`,
`processed = set()`, `failed = set()` (source lines 257–259). -/
def crawlInit (start : String) (store0 : Finset String) : CrawlState :=
  ⟨[start], ∅, ∅, store0⟩

/-- The ids of `Sall` not yet touched by the run. -/
def unseen (st : CrawlState) : Finset String :=
  Sall \ (st.processed ∪ st.failed ∪ st.queue.toFinset)

/-- Termination measure of the traversal loop: every iteration strictly
decreases it (`crawlMeasure_decr`). -/
def crawlMeasure (st : CrawlState) : Nat := 2 * (unseen st).card + st.queue.length

/-- An a-priori bound on the measure of any initial state:
`2 * card Sall + 1`. -/
def fuelBound : Nat := 20001

/-- `crawl_plat_maps` (source lines 246–306): run the traversal loop to
completion — `fuelBound` iterations always suffice, see
`crawl_terminates_reports` — with `community_prefix =
starting_map.split("-")[0]`, and report
`(len(processed), len(failed))`. -/
def crawl_plat_maps (docs : Nat → String → PdfDoc) (net : Nat → String → Bool)
    (start : String) (store0 : Finset String) : Nat × Nat :=
  let fin := crawlFrom docs net (commOf start) 0 fuelBound (crawlInit start store0)
  (fin.processed.card, fin.failed.card)

theorem crawlStep_nil (docs : Nat → String → PdfDoc) (net : Nat → String → Bool)
    (comm : String) (t : Nat) {st : CrawlState} (h : st.queue = []) :
    crawlStep docs net comm t st = st := by
  unfold crawlStep
  rw [h]

theorem crawlStep_skipP (docs : Nat → String → PdfDoc) (net : Nat → String → Bool)
    (comm : String) (t : Nat) (current : String) (rest : List String)
    (P F S : Finset String) (h : current ∈ P) :
    crawlStep docs net comm t ⟨current :: rest, P, F, S⟩ = ⟨rest, P, F, S⟩ := by
  simp [crawlStep, h]

theorem crawlStep_skipF (docs : Nat → String → PdfDoc) (net : Nat → String → Bool)
    (comm : String) (t : Nat) (current : String) (rest : List String)
    (P F S : Finset String) (h1 : current ∉ P) (h2 : current ∈ F) :
    crawlStep docs net comm t ⟨current :: rest, P, F, S⟩ = ⟨rest, P, F, S⟩ := by
  simp [crawlStep, h1, h2]

theorem crawlStep_fail (docs : Nat → String → PdfDoc) (net : Nat → String → Bool)
    (comm : String) (t : Nat) (current : String) (rest : List String)
    (P F S : Finset String) (h1 : current ∉ P) (h2 : current ∉ F)
    (hdl : (download_pdf net t current S).1 = false) :
    crawlStep docs net comm t ⟨current :: rest, P, F, S⟩ =
      ⟨rest, P, insert current F, S⟩ := by
  simp [crawlStep, h1, h2, hdl]

theorem crawlStep_ok (docs : Nat → String → PdfDoc) (net : Nat → String → Bool)
    (comm : String) (t : Nat) (current : String) (rest : List String)
    (P F S : Finset String) (h1 : current ∉ P) (h2 : current ∉ F)
    (hdl : (download_pdf net t current S).1 = true) :
    crawlStep docs net comm t ⟨current :: rest, P, F, S⟩ =
      ⟨(extract_map_references (docs t current) current).foldl
          (fun q ref =>
            if pyStartsWith ref (comm ++ "-") ∧ ref ∉ insert current P ∧ ref ∉ F ∧ ref ∉ q
            then q ++ [ref] else q) rest,
        insert current P, F, (download_pdf net t current S).2⟩ := by
  simp [crawlStep, h1, h2, hdl]

theorem enqFold_spec (comm : String) (P F : Finset String) :
    ∀ (refs : List String) (q0 : List String),
      ∃ add : List String,
        refs.foldl (fun q ref =>
            if pyStartsWith ref (comm ++ "-") ∧ ref ∉ P ∧ ref ∉ F ∧ ref ∉ q
            then q ++ [ref] else q) q0 = q0 ++ add ∧
          add.Nodup ∧
          (∀ r ∈ add, r ∈ refs ∧ r ∉ P ∧ r ∉ F ∧ r ∉ q0) := by
  intro refs
  induction refs with
  | nil =>
    intro q0
    exact ⟨[], by simp, List.nodup_nil, by simp⟩
  | cons r rs ih =>
    intro q0
    by_cases hcond : pyStartsWith r (comm ++ "-") ∧ r ∉ P ∧ r ∉ F ∧ r ∉ q0
    · obtain ⟨add, heq, hnd, hprop⟩ := ih (q0 ++ [r])
      refine ⟨r :: add, ?_, ?_, ?_⟩
      · simp only [List.foldl_cons, if_pos hcond]
        rw [heq, List.append_assoc, List.singleton_append]
      · refine List.nodup_cons.mpr ⟨?_, hnd⟩
        intro hmem
        exact (hprop r hmem).2.2.2 (by simp)
      · intro x hx
        rcases List.mem_cons.mp hx with rfl | hx
        · exact ⟨List.mem_cons_self x rs, hcond.2.1, hcond.2.2.1, hcond.2.2.2⟩
        · obtain ⟨ha, hb, hc, hd⟩ := hprop x hx
          refine ⟨List.mem_cons_of_mem r ha, hb, hc, ?_⟩
          intro hq0
          exact hd (by simp [hq0])
    · obtain ⟨add, heq, hnd, hprop⟩ := ih q0
      refine ⟨add, ?_, hnd, ?_⟩
      · simp only [List.foldl_cons, if_neg hcond]
        exact heq
      · intro x hx
        obtain ⟨ha, hb, hc, hd⟩ := hprop x hx
        exact ⟨List.mem_cons_of_mem r ha, hb, hc, hd⟩

/-- The invariant of C4: `processed` and `failed` are disjoint, the
frontier holds no duplicates (an id currently queued is never enqueued
again), and no queued id is already processed or failed (an id in
`processed` or `failed` is never enqueued again). -/
def crawlInv (st : CrawlState) : Prop :=
  Disjoint st.processed st.failed ∧ st.queue.Nodup ∧
    ∀ x ∈ st.queue, x ∉ st.processed ∧ x ∉ st.failed

theorem crawlInv_step (docs : Nat → String → PdfDoc) (net : Nat → String → Bool)
    (comm : String) (t : Nat) {st : CrawlState} (h : crawlInv st) :
    crawlInv (crawlStep docs net comm t st) := by
  obtain ⟨queue, P, F, S⟩ := st
  obtain ⟨hdisj, hnd, hq⟩ := h
  cases queue with
  | nil => exact ⟨hdisj, hnd, hq⟩
  | cons current rest =>
    simp only [List.nodup_cons] at hnd
    obtain ⟨hcr, hndr⟩ := hnd
    have hqrest : ∀ x ∈ rest, x ∉ P ∧ x ∉ F := fun x hx => hq x (List.mem_cons_of_mem _ hx)
    by_cases h1 : current ∈ P
    · rw [crawlStep_skipP docs net comm t current rest P F S h1]
      exact ⟨hdisj, hndr, hqrest⟩
    · by_cases h2 : current ∈ F
      · rw [crawlStep_skipF docs net comm t current rest P F S h1 h2]
        exact ⟨hdisj, hndr, hqrest⟩
      · by_cases hdl : (download_pdf net t current S).1 = true
        · rw [crawlStep_ok docs net comm t current rest P F S h1 h2 hdl]
          obtain ⟨add, heq, hadd_nd, hadd⟩ :=
            enqFold_spec comm (insert current P) F
              (extract_map_references (docs t current) current) rest
          rw [heq]
          refine ⟨?_, ?_, ?_⟩
          · exact Finset.disjoint_insert_left.mpr ⟨h2, hdisj⟩
          · refine List.Nodup.append hndr hadd_nd ?_
            intro x hxr hxa
            exact (hadd x hxa).2.2.2 hxr
          · intro x hx
            rcases List.mem_append.mp hx with hxr | hxa
            · obtain ⟨hxP, hxF⟩ := hqrest x hxr
              refine ⟨?_, hxF⟩
              intro hins
              rcases Finset.mem_insert.mp hins with rfl | hxP2
              · exact hcr hxr
              · exact hxP hxP2
            · obtain ⟨_, hb, hc, _⟩ := hadd x hxa
              refine ⟨hb, hc⟩
        · rw [crawlStep_fail docs net comm t current rest P F S h1 h2
            (Bool.not_eq_true _ ▸ eq_false_of_ne_true hdl)]
          refine ⟨?_, hndr, ?_⟩
          · exact Finset.disjoint_insert_right.mpr ⟨h1, hdisj⟩
          · intro x hx
            obtain ⟨hxP, hxF⟩ := hqrest x hx
            refine ⟨hxP, ?_⟩
            intro hins
            rcases Finset.mem_insert.mp hins with rfl | hxF2
            · exact hcr hx
            · exact hxF hxF2

theorem crawlInv_run (docs : Nat → String → PdfDoc) (net : Nat → String → Bool)
    (comm : String) :
    ∀ (k t : Nat) (st : CrawlState), crawlInv st → crawlInv (crawlFrom docs net comm t k st) := by
  intro k
  induction k with
  | zero => intro t st h; exact h
  | succ k ih =>
    intro t st h
    exact ih (t + 1) (crawlStep docs net comm t st) (crawlInv_step docs net comm t h)

/-- C4: throughout every traversal run — any document contents, any
network behaviour, any starting id, any pre-existing store, any number
of elapsed loop iterations — `processed` and `failed` are disjoint, the
frontier never holds a duplicate (an id currently queued is not enqueued
again), and no id in the frontier is already in `processed` or `failed`
(a processed or failed id is never re-enqueued). -/
theorem crawl_disjoint_no_reenqueue (docs : Nat → String → PdfDoc)
    (net : Nat → String → Bool) (start : String) (store0 : Finset String) (n : Nat) :
    Disjoint (crawlFrom docs net (commOf start) 0 n (crawlInit start store0)).processed
        (crawlFrom docs net (commOf start) 0 n (crawlInit start store0)).failed ∧
      (crawlFrom docs net (commOf start) 0 n (crawlInit start store0)).queue.Nodup ∧
      ∀ x ∈ (crawlFrom docs net (commOf start) 0 n (crawlInit start store0)).queue,
        x ∉ (crawlFrom docs net (commOf start) 0 n (crawlInit start store0)).processed ∧
        x ∉ (crawlFrom docs net (commOf start) 0 n (crawlInit start store0)).failed := by
  refine crawlInv_run docs net (commOf start) n 0 (crawlInit start store0) ?_
  refine ⟨?_, ?_, ?_⟩ <;> simp [crawlInit]

theorem union_insert_absorb {P F R : Finset String} {c : String} (h : c ∈ P ∪ F) :
    P ∪ F ∪ insert c R = P ∪ F ∪ R := by
  ext x
  simp only [Finset.mem_union, Finset.mem_insert]
  constructor
  · rintro (hx | rfl | hx)
    · exact Or.inl hx
    · exact Or.inl (by simpa using h)
    · exact Or.inr hx
  · rintro (hx | hx)
    · exact Or.inl hx
    · exact Or.inr (Or.inr hx)

theorem crawlMeasure_decr (docs : Nat → String → PdfDoc) (net : Nat → String → Bool)
    (comm : String) (t : Nat) (st : CrawlState) (hne : st.queue ≠ []) :
    crawlMeasure (crawlStep docs net comm t st) < crawlMeasure st := by
  obtain ⟨queue, P, F, S⟩ := st
  cases queue with
  | nil => exact absurd rfl hne
  | cons current rest =>
    have hlen : (current :: rest).length = rest.length + 1 := rfl
    by_cases h1 : current ∈ P
    · rw [crawlStep_skipP docs net comm t current rest P F S h1]
      have huns : unseen ⟨rest, P, F, S⟩ = unseen ⟨current :: rest, P, F, S⟩ := by
        unfold unseen
        rw [show ((⟨current :: rest, P, F, S⟩ : CrawlState).queue.toFinset) =
            insert current rest.toFinset from by simp,
          union_insert_absorb (Finset.mem_union_left F h1)]
      unfold crawlMeasure
      rw [huns]
      simp [hlen]
    · by_cases h2 : current ∈ F
      · rw [crawlStep_skipF docs net comm t current rest P F S h1 h2]
        have huns : unseen ⟨rest, P, F, S⟩ = unseen ⟨current :: rest, P, F, S⟩ := by
          unfold unseen
          rw [show ((⟨current :: rest, P, F, S⟩ : CrawlState).queue.toFinset) =
              insert current rest.toFinset from by simp,
            union_insert_absorb (Finset.mem_union_right P h2)]
        unfold crawlMeasure
        rw [huns]
        simp [hlen]
      · by_cases hdl : (download_pdf net t current S).1 = true
        · rw [crawlStep_ok docs net comm t current rest P F S h1 h2 hdl]
          obtain ⟨add, heq, hadd_nd, hadd⟩ :=
            enqFold_spec comm (insert current P) F
              (extract_map_references (docs t current) current) rest
          rw [heq]
          have hsub : add.toFinset ⊆ unseen ⟨current :: rest, P, F, S⟩ := by
            intro a ha
            rw [List.mem_toFinset] at ha
            obtain ⟨haref, haP, haF, harest⟩ := hadd a ha
            have haSall : a ∈ Sall := mem_extract_Sall haref
            have hane : a ≠ current := by
              intro rfl2
              exact haP (by simp [rfl2])
            have haP2 : a ∉ P := fun hP => haP (Finset.mem_insert_of_mem hP)
            unfold unseen
            simp only [Finset.mem_sdiff, Finset.mem_union, List.mem_toFinset, List.mem_cons]
            refine ⟨haSall, ?_⟩
            intro hmem
            rcases hmem with (hP | hF) | hq
            · exact haP2 hP
            · exact haF hF
            · rcases hq with h | h
              · exact hane h
              · exact harest h
          have huns : unseen ⟨rest ++ add, insert current P, F,
              (download_pdf net t current S).2⟩ =
              unseen ⟨current :: rest, P, F, S⟩ \ add.toFinset := by
            unfold unseen
            ext x
            simp only [Finset.mem_sdiff, Finset.mem_union, List.mem_toFinset,
              List.mem_append, Finset.mem_insert, List.mem_cons]
            constructor
            · rintro ⟨hs, hx⟩
              refine ⟨⟨hs, ?_⟩, ?_⟩
              · intro hmem
                rcases hmem with (hP | hF) | (hc | hr)
                · exact hx (Or.inl (Or.inl (Or.inr hP)))
                · exact hx (Or.inl (Or.inr hF))
                · exact hx (Or.inl (Or.inl (Or.inl hc)))
                · exact hx (Or.inr (Or.inl hr))
              · intro hadd2
                exact hx (Or.inr (Or.inr hadd2))
            · rintro ⟨⟨hs, hx⟩, hxa⟩
              refine ⟨hs, ?_⟩
              intro hmem
              rcases hmem with ((hc | hP) | hF) | (hr | ha)
              · exact hx (Or.inr (Or.inl hc))
              · exact hx (Or.inl (Or.inl hP))
              · exact hx (Or.inl (Or.inr hF))
              · exact hx (Or.inr (Or.inr hr))
              · exact hxa ha
          unfold crawlMeasure
          rw [huns]
          have hL : add.toFinset.card = add.length := List.toFinset_card_of_nodup hadd_nd
          have hle : add.toFinset.card ≤ (unseen ⟨current :: rest, P, F, S⟩).card :=
            Finset.card_le_card hsub
          rw [Finset.card_sdiff hsub]
          simp only [List.length_append, hlen]
          omega
        · have hdlf : (download_pdf net t current S).1 = false := by
            revert hdl
            cases (download_pdf net t current S).1 <;> simp
          rw [crawlStep_fail docs net comm t current rest P F S h1 h2 hdlf]
          have huns : unseen ⟨rest, P, insert current F, S⟩ =
              unseen ⟨current :: rest, P, F, S⟩ := by
            unfold unseen
            have hsets : P ∪ insert current F ∪ rest.toFinset =
                P ∪ F ∪ (current :: rest).toFinset := by
              ext x
              simp only [Finset.mem_union, Finset.mem_insert, List.mem_toFinset,
                List.toFinset_cons, List.mem_cons]
              constructor
              · rintro ((hP | hc | hF) | hr)
                · exact Or.inl (Or.inl hP)
                · exact Or.inr (Or.inl hc)
                · exact Or.inl (Or.inr hF)
                · exact Or.inr (Or.inr hr)
              · rintro ((hP | hF) | hc | hr)
                · exact Or.inl (Or.inl hP)
                · exact Or.inl (Or.inr (Or.inr hF))
                · exact Or.inl (Or.inr (Or.inl hc))
                · exact Or.inr hr
            rw [hsets]
          unfold crawlMeasure
          rw [huns]
          simp [hlen]

theorem crawlFrom_stutter (docs : Nat → String → PdfDoc) (net : Nat → String → Bool)
    (comm : String) :
    ∀ (k t : Nat) {st : CrawlState}, st.queue = [] → crawlFrom docs net comm t k st = st := by
  intro k
  induction k with
  | zero => intro t st _; rfl
  | succ k ih =>
    intro t st h
    show crawlFrom docs net comm (t + 1) k (crawlStep docs net comm t st) = st
    rw [crawlStep_nil docs net comm t h]
    exact ih (t + 1) h

theorem crawlFrom_empty (docs : Nat → String → PdfDoc) (net : Nat → String → Bool)
    (comm : String) :
    ∀ (k t : Nat) (st : CrawlState), crawlMeasure st ≤ k →
      (crawlFrom docs net comm t k st).queue = [] := by
  intro k
  induction k with
  | zero =>
    intro t st h
    have : st.queue.length = 0 := by
      unfold crawlMeasure at h
      omega
    exact List.length_eq_zero.mp this
  | succ k ih =>
    intro t st h
    by_cases hq : st.queue = []
    · rw [crawlFrom_stutter docs net comm (k + 1) t hq]
      exact hq
    · have hdec := crawlMeasure_decr docs net comm t st hq
      show (crawlFrom docs net comm (t + 1) k (crawlStep docs net comm t st)).queue = []
      exact ih (t + 1) _ (by omega)

theorem crawlMeasure_init_le (start : String) (store0 : Finset String) :
    crawlMeasure (crawlInit start store0) ≤ fuelBound := by
  have h1 : (unseen (crawlInit start store0)).card ≤ Sall.card :=
    Finset.card_le_card Finset.sdiff_subset
  have h2 := card_Sall_le
  unfold crawlMeasure fuelBound
  have h3 : (crawlInit start store0).queue.length = 1 := rfl
  omega

/-- C9: for every document-content oracle, every network behaviour,
every starting id and every pre-existing store, the traversal engine
terminates: after `fuelBound` loop iterations the frontier is empty
(each iteration strictly decreases `crawlMeasure`, which is bounded by
the finite enqueueable id space `Sall`), and the run reports exactly the
pair `(len(processed), len(failed))` of the final state. -/
theorem crawl_terminates_reports (docs : Nat → String → PdfDoc)
    (net : Nat → String → Bool) (start : String) (store0 : Finset String) :
    (crawlFrom docs net (commOf start) 0 fuelBound (crawlInit start store0)).queue = [] ∧
      crawl_plat_maps docs net start store0 =
        ((crawlFrom docs net (commOf start) 0 fuelBound (crawlInit start store0)).processed.card,
          (crawlFrom docs net (commOf start) 0 fuelBound (crawlInit start store0)).failed.card) :=
  ⟨crawlFrom_empty docs net (commOf start) fuelBound 0 (crawlInit start store0)
      (crawlMeasure_init_le start store0),
    rfl⟩

theorem download_pdf_mem {net : Nat → String → Bool} {t : Nat} {id : String}
    {store : Finset String} (h : (download_pdf net t id store).1 = true) :
    id ∈ (download_pdf net t id store).2 := by
  unfold download_pdf at *
  by_cases h1 : id ∈ store
  · simp [h1]
  · by_cases h2 : net t id
    · simp [h1, h2]
    · simp [h1, h2] at h

theorem download_pdf_mono (net : Nat → String → Bool) (t : Nat) (id : String)
    (store : Finset String) : store ⊆ (download_pdf net t id store).2 := by
  unfold download_pdf
  by_cases h1 : id ∈ store
  · simp [h1]
  · by_cases h2 : net t id
    · simp only [h1, h2, if_neg, if_pos, if_true, if_false]
      intro x hx
      simp [Finset.mem_insert, hx]
    · simp [h1, h2]

theorem crawl_store_step (docs : Nat → String → PdfDoc) (net : Nat → String → Bool)
    (comm : String) (t : Nat) {st : CrawlState} (h : st.processed ⊆ st.store) :
    (crawlStep docs net comm t st).processed ⊆ (crawlStep docs net comm t st).store := by
  obtain ⟨queue, P, F, S⟩ := st
  cases queue with
  | nil => exact h
  | cons current rest =>
    by_cases h1 : current ∈ P
    · rw [crawlStep_skipP docs net comm t current rest P F S h1]
      exact h
    · by_cases h2 : current ∈ F
      · rw [crawlStep_skipF docs net comm t current rest P F S h1 h2]
        exact h
      · by_cases hdl : (download_pdf net t current S).1 = true
        · rw [crawlStep_ok docs net comm t current rest P F S h1 h2 hdl]
          show insert current P ⊆ (download_pdf net t current S).2
          refine Finset.insert_subset (download_pdf_mem hdl) ?_
          exact subset_trans h (download_pdf_mono net t current S)
        · have hdlf : (download_pdf net t current S).1 = false := by
            revert hdl
            cases (download_pdf net t current S).1 <;> simp
          rw [crawlStep_fail docs net comm t current rest P F S h1 h2 hdlf]
          exact h

theorem crawl_store_run (docs : Nat → String → PdfDoc) (net : Nat → String → Bool)
    (comm : String) :
    ∀ (k t : Nat) (st : CrawlState), st.processed ⊆ st.store →
      (crawlFrom docs net comm t k st).processed ⊆ (crawlFrom docs net comm t k st).store := by
  intro k
  induction k with
  | zero => intro t st h; exact h
  | succ k ih =>
    intro t st h
    exact ih (t + 1) (crawlStep docs net comm t st) (crawl_store_step docs net comm t h)

/-- C10: at every point of a traversal run, every id in `processed` has
its artifact present in the store under its canonical name — a fetch
reports success only when the file already exists or has just been
written (`download_pdf_mem`) — so the reported processed count is a
lower bound on the number of artifacts present. -/
theorem crawl_processed_in_store (docs : Nat → String → PdfDoc)
    (net : Nat → String → Bool) (start : String) (store0 : Finset String) (n : Nat) :
    (crawlFrom docs net (commOf start) 0 n (crawlInit start store0)).processed ⊆
        (crawlFrom docs net (commOf start) 0 n (crawlInit start store0)).store ∧
      (crawlFrom docs net (commOf start) 0 n (crawlInit start store0)).processed.card ≤
        (crawlFrom docs net (commOf start) 0 n (crawlInit start store0)).store.card := by
  have hsub := crawl_store_run docs net (commOf start) n 0 (crawlInit start store0)
    (by simp [crawlInit])
  exact ⟨hsub, Finset.card_le_card hsub⟩

/-! ### The systematic prober (`systematic_discovery`) -/

/-- Outcome of one index of the systematic sweep: the artifact already
existed in the store (the `continue` branch — no fetch happens), the
fetch succeeded, or the fetch failed. -/
inductive ProbeKind where
  | hitExisting : ProbeKind
  | hitFetched : ProbeKind
  | missFetched : ProbeKind
deriving DecidableEq

/-- Ghost record of one loop index of the sweep. -/
structure Attempt where
  i : Nat
  id : String
  kind : ProbeKind
deriving DecidableEq

/-- Events observable on the wire: a fetch attempt (with its outcome)
and the fixed rate-limiting delay `time.sleep(DELAY_SECONDS)`. -/
inductive Event where
  | fetchAttempt : String → Bool → Event
  | sleepDelay : Event
deriving DecidableEq

/-- The prober's state: the store it reads and writes, the `discovered`
set and the `consecutive_failures` counter of the source, plus two ghost
fields (`attempts`, `events`) recording what happened in order; control
flow never reads them. -/
structure ProbeSt where
  store : Finset String
  discovered : Finset String
  consec : Nat
  attempts : List Attempt
  events : List Event
deriving DecidableEq

/-- The `for i in range(1, max_attempts + 1)` loop of
`systematic_discovery` (source lines 321–357), over the list of
remaining indices.  For each index: if the artifact exists, record it as
discovered, reset the counter and `continue` (no fetch, no sleep);
otherwise fetch (`net i id`) — on success record discovered, reset the
counter and sleep; on failure increment the counter, and either `break`
when it reaches the hardcoded `max_consecutive_failures = 10` (no
sleep) or sleep and continue. -/
def probeLoop (net : Nat → String → Bool) (comm : String) :
    List Nat → ProbeSt → ProbeSt
  | [], st => st
  | i :: rest, st =>
    let id := comm ++ "-" ++ pad2 i
    if id ∈ st.store then
      probeLoop net comm rest
        { st with discovered := insert id st.discovered, consec := 0,
                  attempts := st.attempts ++ [⟨i, id, .hitExisting⟩] }
    else if net i id then
      probeLoop net comm rest
        { st with store := insert id st.store,
                  discovered := insert id st.discovered,
                  consec := 0,
                  attempts := st.attempts ++ [⟨i, id, .hitFetched⟩],
                  events := st.events ++ [.fetchAttempt id true, .sleepDelay] }
    else
      if 10 ≤ st.consec + 1 then
        { st with consec := st.consec + 1,
                  attempts := st.attempts ++ [⟨i, id, .missFetched⟩],
                  events := st.events ++ [.fetchAttempt id false] }
      else
        probeLoop net comm rest
          { st with consec := st.consec + 1,
                    attempts := st.attempts ++ [⟨i, id, .missFetched⟩],
                    events := st.events ++ [.fetchAttempt id false, .sleepDelay] }

/-- The prober's initial state: `discovered = set()`,
`consecutive_failures = 0` (source lines 321–322). -/
def probeInit (store0 : Finset String) : ProbeSt := ⟨store0, ∅, 0, [], []⟩

/-- `systematic_discovery` (source lines 309–357): sweep sequence
numbers `1 .. maxAttempts` (the source's default `max_attempts` is 100)
and return the discovered set. -/
def systematic_discovery (net : Nat → String → Bool) (comm : String)
    (store0 : Finset String) (maxAttempts : Nat) : Finset String :=
  (probeLoop net comm (List.range' 1 maxAttempts) (probeInit store0)).discovered

/-- The spec's consecutive-failure counter, recomputed from an attempt
record: reset to 0 by any hit (existing artifact or successful fetch),
incremented by a failed fetch. -/
def specConsec (l : List Attempt) : Nat :=
  l.foldl (fun c a => if a.kind = ProbeKind.missFetched then c + 1 else 0) 0

theorem specConsec_append_one (l : List Attempt) (a : Attempt) :
    specConsec (l ++ [a]) =
      if a.kind = ProbeKind.missFetched then specConsec l + 1 else 0 := by
  simp [specConsec, List.foldl_append]

theorem append_snoc_cases {α : Type} {xs p q : List α} {a : α}
    (h : p ++ q = xs ++ [a]) (hq : q ≠ []) :
    p = xs ∨ ∃ q2, xs = p ++ q2 ∧ q2 ≠ [] := by
  rcases List.append_eq_append_iff.mp h with ⟨a', ha1, ha2⟩ | ⟨c', hc1, hc2⟩
  · cases a' with
    | nil => left; simpa using ha1.symm
    | cons b bs => right; exact ⟨b :: bs, ha1, by simp⟩
  · have hc0 : c' = [] := by
      cases c' with
      | nil => rfl
      | cons b bs =>
        have hlen := congrArg List.length hc2
        cases q with
        | nil => exact absurd rfl hq
        | cons e es => simp at hlen
    subst hc0
    left
    simpa using hc1

theorem consec_prefix_step {xs : List Attempt} {a : Attempt}
    (hall : ∀ p q, xs = p ++ q → q ≠ [] → specConsec p < 10)
    (hlast : specConsec xs < 10) :
    ∀ p q, xs ++ [a] = p ++ q → q ≠ [] → specConsec p < 10 := by
  intro p q h hq
  rcases append_snoc_cases h.symm hq with rfl | ⟨q2, hxs, hq2⟩
  · exact hlast
  · exact hall p q2 hxs hq2

theorem probeLoop_spec (net : Nat → String → Bool) (comm : String) :
    ∀ (m i0 : Nat) (st : ProbeSt),
      st.consec = specConsec st.attempts →
      st.consec < 10 →
      (∀ p q, st.attempts = p ++ q → q ≠ [] → specConsec p < 10) →
      ∃ new : List Attempt,
        (probeLoop net comm (List.range' i0 m) st).attempts = st.attempts ++ new ∧
        new.map Attempt.i = List.range' i0 new.length ∧
        new.length ≤ m ∧
        (∀ a ∈ new, a.id = comm ++ "-" ++ pad2 a.i) ∧
        (∀ x, x ∈ (probeLoop net comm (List.range' i0 m) st).discovered ↔
          x ∈ st.discovered ∨ ∃ a ∈ new, a.kind ≠ ProbeKind.missFetched ∧ a.id = x) ∧
        (∀ p q, (probeLoop net comm (List.range' i0 m) st).attempts = p ++ q → q ≠ [] →
          specConsec p < 10) ∧
        specConsec (probeLoop net comm (List.range' i0 m) st).attempts ≤ 10 ∧
        (new.length < m →
          specConsec (probeLoop net comm (List.range' i0 m) st).attempts = 10) := by
  intro m
  induction m with
  | zero =>
    intro i0 st h1 h2 h3
    have h0 : probeLoop net comm (List.range' i0 0) st = st := rfl
    refine ⟨[], ?_, ?_, Nat.le_refl 0, ?_, ?_, ?_, ?_, ?_⟩
    · rw [h0]; simp
    · simp
    · simp
    · intro x; rw [h0]; simp
    · rw [h0]; exact h3
    · rw [h0, ← h1]; omega
    · intro hlt; exact absurd hlt (by omega)
  | succ m ih =>
    intro i0 st h1 h2 h3
    rw [List.range'_succ]
    have hlast : specConsec st.attempts < 10 := h1 ▸ h2
    by_cases hex : comm ++ "-" ++ pad2 i0 ∈ st.store
    · -- continue branch: artifact exists, no fetch
      have hstep : probeLoop net comm (i0 :: List.range' (i0 + 1) m) st =
          probeLoop net comm (List.range' (i0 + 1) m)
            { st with discovered := insert (comm ++ "-" ++ pad2 i0) st.discovered,
                      consec := 0,
                      attempts := st.attempts ++
                        [⟨i0, comm ++ "-" ++ pad2 i0, ProbeKind.hitExisting⟩] } := by
        simp [probeLoop, hex]
      have p1s : (0 : Nat) = specConsec (st.attempts ++
          [⟨i0, comm ++ "-" ++ pad2 i0, ProbeKind.hitExisting⟩]) := by
        rw [specConsec_append_one]
        simp
      obtain ⟨new2, ha, hmap, hlen, hids, hdisc, hpre, hle10, hearly⟩ :=
        ih (i0 + 1)
          { st with discovered := insert (comm ++ "-" ++ pad2 i0) st.discovered,
                    consec := 0,
                    attempts := st.attempts ++
                      [⟨i0, comm ++ "-" ++ pad2 i0, ProbeKind.hitExisting⟩] }
          p1s (by show (0 : Nat) < 10; omega) (consec_prefix_step h3 hlast)
      refine ⟨⟨i0, comm ++ "-" ++ pad2 i0, ProbeKind.hitExisting⟩ :: new2,
        ?_, ?_, ?_, ?_, ?_, ?_, ?_, ?_⟩
      · rw [hstep, ha]
        simp
      · simp only [List.map_cons, List.length_cons, List.range'_succ]
        rw [hmap]
      · simpa using Nat.succ_le_succ hlen
      · intro a ha2
        rcases List.mem_cons.mp ha2 with rfl | ha2
        · rfl
        · exact hids a ha2
      · intro x
        rw [hstep, hdisc x]
        constructor
        · rintro (hx | ⟨a, haa, hk, hi⟩)
          · rcases Finset.mem_insert.mp hx with rfl | hx
            · exact Or.inr ⟨_, List.mem_cons_self _ _, by simp, rfl⟩
            · exact Or.inl hx
          · exact Or.inr ⟨a, List.mem_cons_of_mem _ haa, hk, hi⟩
        · rintro (hx | ⟨a, haa, hk, hi⟩)
          · exact Or.inl (Finset.mem_insert_of_mem hx)
          · rcases List.mem_cons.mp haa with rfl | haa
            · exact Or.inl (by rw [← hi]; exact Finset.mem_insert_self _ _)
            · exact Or.inr ⟨a, haa, hk, hi⟩
      · rw [hstep]
        exact hpre
      · rw [hstep]
        exact hle10
      · intro hlt
        rw [hstep]
        refine hearly ?_
        simp at hlt
        omega
    · by_cases hnet : net i0 (comm ++ "-" ++ pad2 i0) = true
      · -- successful fetch
        have hstep : probeLoop net comm (i0 :: List.range' (i0 + 1) m) st =
            probeLoop net comm (List.range' (i0 + 1) m)
              { st with store := insert (comm ++ "-" ++ pad2 i0) st.store,
                        discovered := insert (comm ++ "-" ++ pad2 i0) st.discovered,
                        consec := 0,
                        attempts := st.attempts ++
                          [⟨i0, comm ++ "-" ++ pad2 i0, ProbeKind.hitFetched⟩],
                        events := st.events ++
                          [Event.fetchAttempt (comm ++ "-" ++ pad2 i0) true,
                            Event.sleepDelay] } := by
          simp [probeLoop, hex, hnet]
        have p1o : (0 : Nat) = specConsec (st.attempts ++
            [⟨i0, comm ++ "-" ++ pad2 i0, ProbeKind.hitFetched⟩]) := by
          rw [specConsec_append_one]
          simp
        obtain ⟨new2, ha, hmap, hlen, hids, hdisc, hpre, hle10, hearly⟩ :=
          ih (i0 + 1)
            { st with store := insert (comm ++ "-" ++ pad2 i0) st.store,
                      discovered := insert (comm ++ "-" ++ pad2 i0) st.discovered,
                      consec := 0,
                      attempts := st.attempts ++
                        [⟨i0, comm ++ "-" ++ pad2 i0, ProbeKind.hitFetched⟩],
                      events := st.events ++
                        [Event.fetchAttempt (comm ++ "-" ++ pad2 i0) true,
                          Event.sleepDelay] }
            p1o (by show (0 : Nat) < 10; omega) (consec_prefix_step h3 hlast)
        refine ⟨⟨i0, comm ++ "-" ++ pad2 i0, ProbeKind.hitFetched⟩ :: new2,
          ?_, ?_, ?_, ?_, ?_, ?_, ?_, ?_⟩
        · rw [hstep, ha]
          simp
        · simp only [List.map_cons, List.length_cons, List.range'_succ]
          rw [hmap]
        · simpa using Nat.succ_le_succ hlen
        · intro a ha2
          rcases List.mem_cons.mp ha2 with rfl | ha2
          · rfl
          · exact hids a ha2
        · intro x
          rw [hstep, hdisc x]
          constructor
          · rintro (hx | ⟨a, haa, hk, hi⟩)
            · rcases Finset.mem_insert.mp hx with rfl | hx
              · exact Or.inr ⟨_, List.mem_cons_self _ _, by simp, rfl⟩
              · exact Or.inl hx
            · exact Or.inr ⟨a, List.mem_cons_of_mem _ haa, hk, hi⟩
          · rintro (hx | ⟨a, haa, hk, hi⟩)
            · exact Or.inl (Finset.mem_insert_of_mem hx)
            · rcases List.mem_cons.mp haa with rfl | haa
              · exact Or.inl (by rw [← hi]; exact Finset.mem_insert_self _ _)
              · exact Or.inr ⟨a, haa, hk, hi⟩
        · rw [hstep]
          exact hpre
        · rw [hstep]
          exact hle10
        · intro hlt
          rw [hstep]
          refine hearly ?_
          simp at hlt
          omega
      · by_cases hbr : 10 ≤ st.consec + 1
        · -- failed fetch reaching the threshold: break
          have hstep : probeLoop net comm (i0 :: List.range' (i0 + 1) m) st =
              { st with consec := st.consec + 1,
                        attempts := st.attempts ++
                          [⟨i0, comm ++ "-" ++ pad2 i0, ProbeKind.missFetched⟩],
                        events := st.events ++
                          [Event.fetchAttempt (comm ++ "-" ++ pad2 i0) false] } := by
            simp [probeLoop, hex, hnet, hbr]
          have h10 : st.consec + 1 = 10 := by omega
          have hsc : specConsec (st.attempts ++
              [⟨i0, comm ++ "-" ++ pad2 i0, ProbeKind.missFetched⟩]) = 10 := by
            rw [specConsec_append_one]
            simp [← h1, h10]
          refine ⟨[⟨i0, comm ++ "-" ++ pad2 i0, ProbeKind.missFetched⟩],
            ?_, ?_, ?_, ?_, ?_, ?_, ?_, ?_⟩
          · rw [hstep]
          · simp
          · simp
          · intro a ha2
            rcases List.mem_cons.mp ha2 with rfl | ha2
            · rfl
            · exact absurd ha2 (List.not_mem_nil a)
          · intro x
            rw [hstep]
            simp
          · rw [hstep]
            exact consec_prefix_step h3 hlast
          · rw [hstep]
            exact le_of_eq hsc
          · intro _
            rw [hstep]
            exact hsc
        · -- failed fetch below the threshold: sleep and continue
          have hstep : probeLoop net comm (i0 :: List.range' (i0 + 1) m) st =
              probeLoop net comm (List.range' (i0 + 1) m)
                { st with consec := st.consec + 1,
                          attempts := st.attempts ++
                            [⟨i0, comm ++ "-" ++ pad2 i0, ProbeKind.missFetched⟩],
                          events := st.events ++
                            [Event.fetchAttempt (comm ++ "-" ++ pad2 i0) false,
                              Event.sleepDelay] } := by
            simp [probeLoop, hex, hnet, hbr]
          have p1m : st.consec + 1 = specConsec (st.attempts ++
              [⟨i0, comm ++ "-" ++ pad2 i0, ProbeKind.missFetched⟩]) := by
            rw [specConsec_append_one]
            simp [← h1]
          obtain ⟨new2, ha, hmap, hlen, hids, hdisc, hpre, hle10, hearly⟩ :=
            ih (i0 + 1)
              { st with consec := st.consec + 1,
                        attempts := st.attempts ++
                          [⟨i0, comm ++ "-" ++ pad2 i0, ProbeKind.missFetched⟩],
                        events := st.events ++
                          [Event.fetchAttempt (comm ++ "-" ++ pad2 i0) false,
                            Event.sleepDelay] }
              p1m (by show st.consec + 1 < 10; omega) (consec_prefix_step h3 hlast)
          refine ⟨⟨i0, comm ++ "-" ++ pad2 i0, ProbeKind.missFetched⟩ :: new2,
            ?_, ?_, ?_, ?_, ?_, ?_, ?_, ?_⟩
          · rw [hstep, ha]
            simp
          · simp only [List.map_cons, List.length_cons, List.range'_succ]
            rw [hmap]
          · simpa using Nat.succ_le_succ hlen
          · intro a ha2
            rcases List.mem_cons.mp ha2 with rfl | ha2
            · rfl
            · exact hids a ha2
          · intro x
            rw [hstep, hdisc x]
            constructor
            · rintro (hx | ⟨a, haa, hk, hi⟩)
              · exact Or.inl hx
              · exact Or.inr ⟨a, List.mem_cons_of_mem _ haa, hk, hi⟩
            · rintro (hx | ⟨a, haa, hk, hi⟩)
              · exact Or.inl hx
              · rcases List.mem_cons.mp haa with rfl | haa
                · exact absurd rfl hk
                · exact Or.inr ⟨a, haa, hk, hi⟩
          · rw [hstep]
            exact hpre
          · rw [hstep]
            exact hle10
          · intro hlt
            rw [hstep]
            refine hearly ?_
            simp at hlt
            omega

/-- C5: for every network behaviour, community prefix, pre-existing
store and bound `maxAttempts`, the systematic prober's run record
satisfies: the attempted sequence numbers are exactly `1, 2, …, k` in
ascending order for some `k ≤ maxAttempts` (so at most `maxAttempts`
fetches are attempted; `hitExisting` attempts perform no fetch at all —
their event block is empty); every attempted id is the canonical
`comm-NN` form; the returned discovered set consists exactly of the
ids of non-failed attempts (an already-stored id is recorded as
discovered without fetching); and the consecutive-failure counter —
recomputed from the record by `specConsec`, which resets to 0 on either
kind of hit and increments on each failed fetch — stays below 10 on
every proper prefix of the run (the sweep never stops before the
counter reaches the threshold), never exceeds 10, and equals 10
whenever the sweep stopped before exhausting `maxAttempts`. -/
theorem systematic_discovery_spec (net : Nat → String → Bool) (comm : String)
    (store0 : Finset String) (maxAttempts : Nat) :
    ∃ new : List Attempt,
      (probeLoop net comm (List.range' 1 maxAttempts) (probeInit store0)).attempts = new ∧
      new.map Attempt.i = List.range' 1 new.length ∧
      new.length ≤ maxAttempts ∧
      (∀ a ∈ new, a.id = comm ++ "-" ++ pad2 a.i) ∧
      (∀ x, x ∈ systematic_discovery net comm store0 maxAttempts ↔
        ∃ a ∈ new, a.kind ≠ ProbeKind.missFetched ∧ a.id = x) ∧
      (∀ p q, new = p ++ q → q ≠ [] → specConsec p < 10) ∧
      specConsec new ≤ 10 ∧
      (new.length < maxAttempts → specConsec new = 10) := by
  obtain ⟨new, ha, hmap, hlen, hids, hdisc, hpre, hle10, hearly⟩ :=
    probeLoop_spec net comm maxAttempts 1 (probeInit store0) rfl (by show (0 : Nat) < 10; omega)
      (by
        intro p q h hq
        exact absurd (List.append_eq_nil.mp h.symm).2 hq)
  have hnew : (probeLoop net comm (List.range' 1 maxAttempts) (probeInit store0)).attempts =
      new := by simpa using ha
  refine ⟨new, hnew, hmap, hlen, hids, ?_, ?_, ?_, ?_⟩
  · intro x
    have := hdisc x
    unfold systematic_discovery
    simpa [probeInit] using this
  · intro p q h hq
    exact hpre p q (hnew.trans h) hq
  · exact hnew ▸ hle10
  · intro hlt
    exact hnew ▸ hearly hlt

/-! ### Rate-limiting delays (C7) -/

/-- The `pending` flag after scanning a trace: `true` when a fetch has
occurred with no delay since. -/
def pendAfter (p : Bool) (l : List Event) : Bool :=
  l.foldl
    (fun _pend e =>
      match e with
      | Event.fetchAttempt _ _ => true
      | Event.sleepDelay => false) p

/-- The spec-side property "between any two consecutive fetch attempts
there is at least one delay": scanning left to right, a fetch attempt
must never occur while a previous fetch is still pending a delay. -/
def specGapsOk : Bool → List Event → Bool
  | _, [] => true
  | pend, Event.fetchAttempt _ _ :: rest => !pend && specGapsOk true rest
  | _, Event.sleepDelay :: rest => specGapsOk false rest

/-- The spec-side property "the delay occurs after every fetch attempt,
regardless of success or failure": every fetch event is immediately
followed by a delay event. -/
def specSleepAfterEvery : List Event → Bool
  | [] => true
  | [Event.fetchAttempt _ _] => false
  | Event.fetchAttempt _ _ :: Event.sleepDelay :: rest => specSleepAfterEvery rest
  | Event.fetchAttempt _ _ :: Event.fetchAttempt _ _ :: _ => false
  | Event.sleepDelay :: rest => specSleepAfterEvery rest

/-- The spec-side property "the delay occurs after every successful
fetch attempt": every success-fetch event is immediately followed by a
delay event. -/
def specSleepAfterHits : List Event → Bool
  | [] => true
  | [Event.fetchAttempt _ true] => false
  | Event.fetchAttempt _ true :: Event.sleepDelay :: rest => specSleepAfterHits rest
  | Event.fetchAttempt _ true :: Event.fetchAttempt _ _ :: _ => false
  | _ :: rest => specSleepAfterHits rest

theorem specGapsOk_append (xs : List Event) :
    ∀ (p : Bool) (ys : List Event),
      specGapsOk p (xs ++ ys) = (specGapsOk p xs && specGapsOk (pendAfter p xs) ys) := by
  induction xs with
  | nil =>
    intro p ys
    simp [specGapsOk, pendAfter]
  | cons e rest ih =>
    intro p ys
    cases e with
    | fetchAttempt id ok =>
      show specGapsOk p (Event.fetchAttempt id ok :: (rest ++ ys)) = _
      rw [show ∀ l, specGapsOk p (Event.fetchAttempt id ok :: l) =
          (!p && specGapsOk true l) from fun l => rfl]
      rw [ih true ys]
      rw [show pendAfter p (Event.fetchAttempt id ok :: rest) = pendAfter true rest from rfl]
      rw [show specGapsOk p (Event.fetchAttempt id ok :: rest) =
          (!p && specGapsOk true rest) from rfl]
      cases p <;> simp
    | sleepDelay =>
      show specGapsOk p (Event.sleepDelay :: (rest ++ ys)) = _
      rw [show ∀ l, specGapsOk p (Event.sleepDelay :: l) = specGapsOk false l from
        fun l => rfl]
      rw [ih false ys]
      rw [show pendAfter p (Event.sleepDelay :: rest) = pendAfter false rest from rfl]
      rw [show specGapsOk p (Event.sleepDelay :: rest) = specGapsOk false rest from rfl]

theorem probeLoop_gaps (net : Nat → String → Bool) (comm : String) :
    ∀ (idxs : List Nat) (st : ProbeSt),
      specGapsOk false st.events = true → pendAfter false st.events = false →
      specGapsOk false (probeLoop net comm idxs st).events = true := by
  intro idxs
  induction idxs with
  | nil => intro st h1 _; exact h1
  | cons i rest ih =>
    intro st h1 h2
    by_cases hex : comm ++ "-" ++ pad2 i ∈ st.store
    · have hstep : probeLoop net comm (i :: rest) st =
          probeLoop net comm rest
            { st with discovered := insert (comm ++ "-" ++ pad2 i) st.discovered,
                      consec := 0,
                      attempts := st.attempts ++
                        [⟨i, comm ++ "-" ++ pad2 i, ProbeKind.hitExisting⟩] } := by
        simp [probeLoop, hex]
      rw [hstep]
      exact ih _ h1 h2
    · by_cases hnet : net i (comm ++ "-" ++ pad2 i) = true
      · have hstep : probeLoop net comm (i :: rest) st =
            probeLoop net comm rest
              { st with store := insert (comm ++ "-" ++ pad2 i) st.store,
                        discovered := insert (comm ++ "-" ++ pad2 i) st.discovered,
                        consec := 0,
                        attempts := st.attempts ++
                          [⟨i, comm ++ "-" ++ pad2 i, ProbeKind.hitFetched⟩],
                        events := st.events ++
                          [Event.fetchAttempt (comm ++ "-" ++ pad2 i) true,
                            Event.sleepDelay] } := by
          simp [probeLoop, hex, hnet]
        rw [hstep]
        refine ih _ ?_ ?_
        · show specGapsOk false (st.events ++ _) = true
          rw [specGapsOk_append, h1, h2]
          rfl
        · show pendAfter false (st.events ++ _) = false
          unfold pendAfter
          rw [List.foldl_append]
          rfl
      · by_cases hbr : 10 ≤ st.consec + 1
        · have hstep : probeLoop net comm (i :: rest) st =
              { st with consec := st.consec + 1,
                        attempts := st.attempts ++
                          [⟨i, comm ++ "-" ++ pad2 i, ProbeKind.missFetched⟩],
                        events := st.events ++
                          [Event.fetchAttempt (comm ++ "-" ++ pad2 i) false] } := by
            simp [probeLoop, hex, hnet, hbr]
          rw [hstep]
          show specGapsOk false (st.events ++ _) = true
          rw [specGapsOk_append, h1, h2]
          rfl
        · have hstep : probeLoop net comm (i :: rest) st =
              probeLoop net comm rest
                { st with consec := st.consec + 1,
                          attempts := st.attempts ++
                            [⟨i, comm ++ "-" ++ pad2 i, ProbeKind.missFetched⟩],
                          events := st.events ++
                            [Event.fetchAttempt (comm ++ "-" ++ pad2 i) false,
                              Event.sleepDelay] } := by
            simp [probeLoop, hex, hnet, hbr]
          rw [hstep]
          refine ih _ ?_ ?_
          · show specGapsOk false (st.events ++ _) = true
            rw [specGapsOk_append, h1, h2]
            rfl
          · show pendAfter false (st.events ++ _) = false
            unfold pendAfter
            rw [List.foldl_append]
            rfl

/-- The observable events of one iteration of the traversal loop: a
fetch attempt for the dequeued id (when it is not skipped), followed by
the `time.sleep(DELAY_SECONDS)` delay only on the success path — the
failure path `continue`s past the sleep (source lines 278–287). -/
def crawlStepEvents (net : Nat → String → Bool) (t : Nat) (st : CrawlState) : List Event :=
  match st.queue with
  | [] => []
  | current :: _ =>
    if current ∈ st.processed then []
    else if current ∈ st.failed then []
    else if (download_pdf net t current st.store).1 then
      [Event.fetchAttempt current true, Event.sleepDelay]
    else [Event.fetchAttempt current false]

/-- The event trace of `k` iterations of the traversal loop. -/
def crawlEventsFrom (docs : Nat → String → PdfDoc) (net : Nat → String → Bool)
    (comm : String) : Nat → Nat → CrawlState → List Event
  | _, 0, _ => []
  | t, k + 1, st =>
    crawlStepEvents net t st ++
      crawlEventsFrom docs net comm (t + 1) k (crawlStep docs net comm t st)

theorem crawl_sleep_after_hits (docs : Nat → String → PdfDoc) (net : Nat → String → Bool)
    (comm : String) :
    ∀ (k t : Nat) (st : CrawlState),
      specSleepAfterHits (crawlEventsFrom docs net comm t k st) = true := by
  intro k
  induction k with
  | zero => intro t st; rfl
  | succ k ih =>
    intro t st
    show specSleepAfterHits (crawlStepEvents net t st ++ _) = true
    rcases hq : st.queue with _ | ⟨current, rest⟩
    · rw [show crawlStepEvents net t st = [] from by simp [crawlStepEvents, hq]]
      exact ih (t + 1) _
    · by_cases h1 : current ∈ st.processed
      · rw [show crawlStepEvents net t st = [] from by simp [crawlStepEvents, hq, h1]]
        exact ih (t + 1) _
      · by_cases h2 : current ∈ st.failed
        · rw [show crawlStepEvents net t st = [] from by simp [crawlStepEvents, hq, h1, h2]]
          exact ih (t + 1) _
        · by_cases hdl : (download_pdf net t current st.store).1 = true
          · rw [show crawlStepEvents net t st =
                [Event.fetchAttempt current true, Event.sleepDelay] from by
                  simp [crawlStepEvents, hq, h1, h2, hdl]]
            show specSleepAfterHits (Event.fetchAttempt current true ::
              Event.sleepDelay :: _) = true
            rw [show ∀ l, specSleepAfterHits (Event.fetchAttempt current true ::
              Event.sleepDelay :: l) = specSleepAfterHits l from fun l => rfl]
            exact ih (t + 1) _
          · rw [show crawlStepEvents net t st = [Event.fetchAttempt current false] from by
                simp [crawlStepEvents, hq, h1, h2, hdl]]
            show specSleepAfterHits (Event.fetchAttempt current false :: _) = true
            rw [show ∀ l, specSleepAfterHits (Event.fetchAttempt current false :: l) =
              specSleepAfterHits l from fun l => rfl]
            exact ih (t + 1) _

/-- C7 (amended): in the probing loop, between any two consecutive fetch
attempts there is at least one delay — every fetch is followed by the
sleep except the one that triggers the early stop, after which no fetch
follows.  In the traversal loop, the delay follows every successful
fetch attempt, but a failed attempt `continue`s without sleeping (see
`delay_ce` for both violations of the original claim). -/
theorem delay_amended :
    (∀ (net : Nat → String → Bool) (comm : String) (store0 : Finset String)
        (maxAttempts : Nat),
      specGapsOk false
        (probeLoop net comm (List.range' 1 maxAttempts) (probeInit store0)).events = true) ∧
      (∀ (docs : Nat → String → PdfDoc) (net : Nat → String → Bool) (comm : String)
          (k t : Nat) (st : CrawlState),
        specSleepAfterHits (crawlEventsFrom docs net comm t k st) = true) := by
  constructor
  · intro net comm store0 maxAttempts
    exact probeLoop_gaps net comm (List.range' 1 maxAttempts) (probeInit store0) rfl rfl
  · intro docs net comm k t st
    exact crawl_sleep_after_hits docs net comm k t st

/-- A document-content oracle giving every fetched PDF no pages. -/
def docsEmpty : Nat → String → PdfDoc := fun _ _ => PdfDoc.ok []

/-- A network that answers only the very first fetch of a run. -/
def netFirstOnly : Nat → String → Bool := fun t _ => t == 0

/-- A network that never answers. -/
def netNever : Nat → String → Bool := fun _ _ => false

/-- C7 counterexample: starting from `001-01` with a network that
serves only the first request, the traversal fetches `001-02` and then
`001-11` with no delay between them (the failure path skips the sleep),
violating both "a delay after every fetch attempt" and "at least one
delay between consecutive fetch attempts"; and the prober's final,
sweep-stopping failed fetch is likewise not followed by a delay. -/
theorem delay_ce :
    specGapsOk false
        (crawlEventsFrom docsEmpty netFirstOnly "001" 0 3 (crawlInit "001-01" ∅)) = false ∧
      specSleepAfterEvery
        (crawlEventsFrom docsEmpty netFirstOnly "001" 0 3 (crawlInit "001-01" ∅)) = false ∧
      specSleepAfterEvery
        (probeLoop netNever "001" (List.range' 1 100) (probeInit ∅)).events = false := by
  decide

/-! ### The hybrid orchestrator (`hybrid_crawl_community`) -/

/-- Phase 4 of the hybrid orchestrator (source lines 394–405): download
every collected additional reference in order, tallying successes in
`ap` and failures in `af`, threading the store (`time.sleep` after each
attempt is not modelled here; see the C7 development). -/
def phase4Loop (net : Nat → String → Bool) :
    List String → Nat → Nat → Nat → Finset String → Nat × Nat × Finset String
  | [], _, ap, af, store => (ap, af, store)
  | r :: rest, t, ap, af, store =>
    if (download_pdf net t r store).1 then
      phase4Loop net rest (t + 1) (ap + 1) af (download_pdf net t r store).2
    else
      phase4Loop net rest (t + 1) ap (af + 1) (download_pdf net t r store).2

/-- Phase 3 of the hybrid orchestrator (source lines 382–391): for every
map discovered by the prober — Python iterates its `set` in unspecified
order; the model iterates in ascending id order, which leaves the
phase-4 totals unchanged — extract references from its stored artifact
(`docs3 id` gives the stored content, read only when the artifact
exists) and append, without deduplication, every reference of the
community that is not yet in the store. -/
def hybridNewly (docs3 : String → PdfDoc) (comm : String)
    (disc store2 : Finset String) : List String :=
  (disc.sort (fun a b => a ≤ b)).foldl
    (fun acc id =>
      if id ∈ store2 then
        acc ++ (extract_map_references (docs3 id) id).filter
          (fun ref => pyStartsWith ref (comm ++ "-") ∧ ref ∉ store2)
      else acc) []

/-- `hybrid_crawl_community` (source lines 360–416): phase 1 runs the
traversal engine from the starting id; phase 2 runs the systematic
prober with the source's default `max_attempts = 100` over the store
phase 1 left behind; phase 3 collects unfetched same-community
references of the discovered maps; phase 4 downloads them.  The
reported totals are `processed_pdf + len(discovered_systematic) +
additional_processed` and `failed_pdf + additional_failed` (source
lines 407–408).  Each fetching phase gets its own network oracle and
each extracting phase its own content oracle. -/
def hybrid_crawl_community (docs1 : Nat → String → PdfDoc) (net1 : Nat → String → Bool)
    (net2 : Nat → String → Bool) (docs3 : String → PdfDoc) (net4 : Nat → String → Bool)
    (start : String) (store0 : Finset String) : Nat × Nat :=
  let comm := commOf start
  let st1 := crawlFrom docs1 net1 comm 0 fuelBound (crawlInit start store0)
  let pr := probeLoop net2 comm (List.range' 1 100) (probeInit st1.store)
  let newly := hybridNewly docs3 comm pr.discovered pr.store
  let p4 := phase4Loop net4 newly 0 0 0 pr.store
  (st1.processed.card + pr.discovered.card + p4.1, st1.failed.card + p4.2.1)

theorem phase4Loop_counts (net : Nat → String → Bool) :
    ∀ (refs : List String) (t ap af : Nat) (store : Finset String),
      (phase4Loop net refs t ap af store).1 + (phase4Loop net refs t ap af store).2.1 =
        ap + af + refs.length := by
  intro refs
  induction refs with
  | nil =>
    intro t ap af store
    simp [phase4Loop]
  | cons r rest ih =>
    intro t ap af store
    by_cases hdl : (download_pdf net t r store).1 = true
    · simp only [phase4Loop, if_pos hdl]
      rw [ih]
      simp
      omega
    · simp only [phase4Loop, if_neg hdl]
      rw [ih]
      simp
      omega

/-- C6 (amended): the hybrid orchestrator's reported totals are exactly
`(phase-1 processed) + (phase-2 discovered) + (phase-4 successes)` and
`(phase-1 failures) + (phase-4 failures)`; phase 3 fetches nothing, and
every phase-4 candidate is attempted exactly once, so phase-4 successes
and failures together exhaust the collected reference list.  Fetch
failures incurred during the systematic-probing phase are NOT counted
in the failure total (see `hybrid_totals_ce`). -/
theorem hybrid_totals_amended (docs1 : Nat → String → PdfDoc)
    (net1 net2 : Nat → String → Bool) (docs3 : String → PdfDoc)
    (net4 : Nat → String → Bool) (start : String) (store0 : Finset String) :
    hybrid_crawl_community docs1 net1 net2 docs3 net4 start store0 =
      ((crawlFrom docs1 net1 (commOf start) 0 fuelBound
          (crawlInit start store0)).processed.card +
        (probeLoop net2 (commOf start) (List.range' 1 100)
          (probeInit (crawlFrom docs1 net1 (commOf start) 0 fuelBound
            (crawlInit start store0)).store)).discovered.card +
        (phase4Loop net4
          (hybridNewly docs3 (commOf start)
            (probeLoop net2 (commOf start) (List.range' 1 100)
              (probeInit (crawlFrom docs1 net1 (commOf start) 0 fuelBound
                (crawlInit start store0)).store)).discovered
            (probeLoop net2 (commOf start) (List.range' 1 100)
              (probeInit (crawlFrom docs1 net1 (commOf start) 0 fuelBound
                (crawlInit start store0)).store)).store)
          0 0 0
          (probeLoop net2 (commOf start) (List.range' 1 100)
            (probeInit (crawlFrom docs1 net1 (commOf start) 0 fuelBound
              (crawlInit start store0)).store)).store).1,
        (crawlFrom docs1 net1 (commOf start) 0 fuelBound
          (crawlInit start store0)).failed.card +
        (phase4Loop net4
          (hybridNewly docs3 (commOf start)
            (probeLoop net2 (commOf start) (List.range' 1 100)
              (probeInit (crawlFrom docs1 net1 (commOf start) 0 fuelBound
                (crawlInit start store0)).store)).discovered
            (probeLoop net2 (commOf start) (List.range' 1 100)
              (probeInit (crawlFrom docs1 net1 (commOf start) 0 fuelBound
                (crawlInit start store0)).store)).store)
          0 0 0
          (probeLoop net2 (commOf start) (List.range' 1 100)
            (probeInit (crawlFrom docs1 net1 (commOf start) 0 fuelBound
              (crawlInit start store0)).store)).store).2.1) ∧
      (∀ (refs : List String) (store : Finset String),
        (phase4Loop net4 refs 0 0 0 store).1 + (phase4Loop net4 refs 0 0 0 store).2.1 =
          refs.length) := by
  constructor
  · rfl
  · intro refs store
    have := phase4Loop_counts net4 refs 0 0 0 store
    omega

/-- C6 counterexample: with a network that never answers and an empty
store, starting from `001-01`, the hybrid orchestrator reports totals
`(0, 1)` — one failure, from phase 1 — although the systematic-probing
phase itself performed 10 failed fetch attempts; the claimed failure
total "including any fetch failures incurred during the
systematic-probing phase" would be `1 + 10`, which the code does not
report. -/
theorem hybrid_totals_ce :
    hybrid_crawl_community docsEmpty netNever netNever (fun _ => PdfDoc.ok []) netNever
        "001-01" ∅ = (0, 1) ∧
      ((probeLoop netNever "001" (List.range' 1 100)
          (probeInit (crawlFrom docsEmpty netNever "001" 0 fuelBound
            (crawlInit "001-01" ∅)).store)).attempts.filter
          (fun a => a.kind = ProbeKind.missFetched)).length = 10 ∧
      (1 : Nat) ≠ 1 + 10 := by
  have hstep : ∀ (t k : Nat) (st : CrawlState),
      crawlFrom docsEmpty netNever "001" t (k + 1) st =
        crawlFrom docsEmpty netNever "001" (t + 1) k
          (crawlStep docsEmpty netNever "001" t st) := fun _ _ _ => rfl
  have h1 : crawlStep docsEmpty netNever "001" 0 (crawlInit "001-01" ∅) =
      ⟨[], ∅, {"001-01"}, ∅⟩ := by decide
  have hrun : crawlFrom docsEmpty netNever "001" 0 fuelBound (crawlInit "001-01" ∅) =
      ⟨[], ∅, {"001-01"}, ∅⟩ := by
    rw [show fuelBound = 20000 + 1 from rfl, hstep, h1]
    exact crawlFrom_stutter docsEmpty netNever "001" 20000 (0 + 1) rfl
  refine ⟨?_, ?_, by decide⟩
  · have hcomm : commOf "001-01" = "001" := by decide
    have hEq : hybrid_crawl_community docsEmpty netNever netNever (fun _ => PdfDoc.ok [])
        netNever "001-01" ∅ =
        ((crawlFrom docsEmpty netNever (commOf "001-01") 0 fuelBound
            (crawlInit "001-01" ∅)).processed.card +
          (probeLoop netNever (commOf "001-01") (List.range' 1 100)
            (probeInit (crawlFrom docsEmpty netNever (commOf "001-01") 0 fuelBound
              (crawlInit "001-01" ∅)).store)).discovered.card +
          (phase4Loop netNever
            (hybridNewly (fun _ => PdfDoc.ok []) (commOf "001-01")
              (probeLoop netNever (commOf "001-01") (List.range' 1 100)
                (probeInit (crawlFrom docsEmpty netNever (commOf "001-01") 0 fuelBound
                  (crawlInit "001-01" ∅)).store)).discovered
              (probeLoop netNever (commOf "001-01") (List.range' 1 100)
                (probeInit (crawlFrom docsEmpty netNever (commOf "001-01") 0 fuelBound
                  (crawlInit "001-01" ∅)).store)).store)
            0 0 0
            (probeLoop netNever (commOf "001-01") (List.range' 1 100)
              (probeInit (crawlFrom docsEmpty netNever (commOf "001-01") 0 fuelBound
                (crawlInit "001-01" ∅)).store)).store).1,
          (crawlFrom docsEmpty netNever (commOf "001-01") 0 fuelBound
            (crawlInit "001-01" ∅)).failed.card +
          (phase4Loop netNever
            (hybridNewly (fun _ => PdfDoc.ok []) (commOf "001-01")
              (probeLoop netNever (commOf "001-01") (List.range' 1 100)
                (probeInit (crawlFrom docsEmpty netNever (commOf "001-01") 0 fuelBound
                  (crawlInit "001-01" ∅)).store)).discovered
              (probeLoop netNever (commOf "001-01") (List.range' 1 100)
                (probeInit (crawlFrom docsEmpty netNever (commOf "001-01") 0 fuelBound
                  (crawlInit "001-01" ∅)).store)).store)
            0 0 0
            (probeLoop netNever (commOf "001-01") (List.range' 1 100)
              (probeInit (crawlFrom docsEmpty netNever (commOf "001-01") 0 fuelBound
                (crawlInit "001-01" ∅)).store)).store).2.1) := rfl
    rw [hcomm, hrun] at hEq
    dsimp only at hEq
    rw [hEq]
    have hd : (probeLoop netNever "001" (List.range' 1 100)
        (probeInit (∅ : Finset String))).discovered = ∅ := by decide
    have hs : (probeLoop netNever "001" (List.range' 1 100)
        (probeInit (∅ : Finset String))).store = ∅ := by decide
    rw [hd, hs]
    rw [show hybridNewly (fun _ => PdfDoc.ok []) "001" ∅ ∅ = [] from by
      simp [hybridNewly, Finset.sort_empty]]
    decide
  · rw [hrun]
    decide
